import Mathlib

/-
Verification of the route-matching and path-normalization engine of
`aws-lambda-proxy` (files `aws_lambda_proxy/gateway.py`, `routing.py`,
`patterns.py`, `proxy.py`).

The Python code is shallowly embedded: strings are `List Char`, Python
dictionaries are association lists, fallible code returns `Except PyErr`
(each `PyErr` constructor corresponds to one Python exception class), and
the regular expressions produced by `_path_to_regex` are represented by a
small regex AST with the standard regular-language matching semantics.

Modelling notes, valid throughout the file:
* Python's `re` module anchors `^`/`$` at string start/end; the quirk that
  `$` also matches just before one trailing newline is not modelled (API
  gateway paths contain no newlines).  The `.` metacharacter matches every
  character except a newline, which IS modelled.
* `int(...)` / `float(...)` are modelled up to their success/failure
  behaviour on sign/digit strings; leading/trailing whitespace, numeric
  underscores and the `inf`/`nan` spellings are not modelled (no captured
  path segment can contain them).
-/

namespace ALP

/-- Python strings are modelled as character lists. -/
abbrev Str := List Char

/-- `sub in t` for strings, Python's `in` operator on `str`. -/
def strIn (sub t : Str) : Bool := decide (List.IsInfix sub t)

/-- Python `s.replace(old, new)`: replaces every non-overlapping occurrence
of `old`, scanning left to right.  (Python treats an empty `old` specially;
the call sites in the source always pass a non-empty `old`, so the empty
case is modelled as the identity.) -/
def pyReplaceAll (old new : Str) : Str → Str
  | [] => []
  | c :: rest =>
    if old ≠ [] ∧ old.isPrefixOf (c :: rest)
    then new ++ pyReplaceAll old new ((c :: rest).drop old.length)
    else c :: pyReplaceAll old new rest
termination_by s => s.length
decreasing_by
  · simp only [List.length_drop, List.length_cons]
    have ho : old.length ≥ 1 := by
      rename_i h
      cases old with
      | nil => exact absurd rfl h.1
      | cons a l => simp
    omega
  · simp

/-- Removal of the first occurrence only — this follows the SPEC's words
("remove the first occurrence of that concatenation as a substring"), for
comparison against the code's `str.replace`, which removes every
occurrence.  Not part of the source. -/
def specRemoveFirstOcc (old : Str) : Str → Str
  | [] => []
  | c :: rest =>
    if old ≠ [] ∧ old.isPrefixOf (c :: rest)
    then (c :: rest).drop old.length
    else c :: specRemoveFirstOcc old rest

/-- Python `s.rstrip("/")`. -/
def rstripSlash (s : Str) : Str := (s.reverse.dropWhile (fun c => c = '/')).reverse

deriving instance DecidableEq for Except

/-- Python exception classes that the modelled code can raise.
`notModeled` is not a Python exception: it marks the one spot where the
model gives up (matching against a route whose compiled regex contains a
verbatim inline-regex pattern); no theorem relies on it. -/
inductive PyErr where
  | keyError
  | attributeError
  | valueError
  | indexError
  | notModeled
  deriving DecidableEq, Repr

/-- The `requestContext` member of a gateway event (only the field the
source reads). -/
structure RequestCtx where
  stage : Option String := none
  deriving DecidableEq, Repr

/-- A gateway event: the fields of the Python event dict that
`gateway.py` and `proxy.py` read.  `none` models an absent key. -/
structure Event where
  version : Option String := none
  headers : Option (List (String × String)) := none
  requestContext : Option RequestCtx := none
  resource : Option String := none
  path : Option String := none
  pathParameters : Option (List (String × String)) := none
  httpMethod : Option String := none
  queryStringParameters : Option (List (String × String)) := none
  body : Option String := none
  isBase64Encoded : Bool := false
  deriving DecidableEq, Repr

/-- `proxy_pattern = re.compile(r"/{(?P<name>.+)\+}$")`, searched with
`re.search`: the leftmost position where `/{` starts and the string ends
with `+}`, with a non-empty, newline-free name between (`.` does not match
a newline).  Returns `some name` when the candidate starting at the head
of the string matches. -/
def proxyHere (s : Str) : Option Str :=
  match s with
  | '/' :: '{' :: rest =>
    let core := rest.dropLast.dropLast
    if rest.length ≥ 3 ∧ rest.drop (rest.length - 2) = ['+', '}'] ∧ ¬ core.contains ('\n')
    then some core else none
  | _ => none

/-- `proxy_pattern.search(s)`: leftmost match; returns (text before the
match, captured `name`). -/
def proxySplit : Str → Option (Str × Str)
  | [] => none
  | c :: rest =>
    match proxyHere (c :: rest) with
    | some name => some ([], name)
    | none => (proxySplit rest).map (fun pn => (c :: pn.1, pn.2))

/-- `proxy_pattern.sub("", s)`: the match (which always extends to the end
of the string) is deleted; without a match `s` is returned unchanged. -/
def proxySub (s : Str) : Str :=
  match proxySplit s with
  | some pn => pn.1
  | none => s

/-- `gateway._get_apigw_stage`.  `event["requestContext"]` raises
`KeyError` when the key is absent. -/
def getApigwStage (e : Event) : Except PyErr String :=
  let header := e.headers.getD []
  let host := (header.lookup ("x-forwarded-host")).getD ((header.lookup ("host")).getD (""))
  if strIn (".execute-api.".toList) host.toList ∧ strIn (".amazonaws.com".toList) host.toList
  then
    match e.requestContext with
    | none => .error .keyError
    | some rc => .ok (rc.stage.getD (""))
  else .ok ("")

/-- `gateway._get_request_path`.  With a greedy-proxy resource,
`event["pathParameters"]` raises `KeyError` when absent; a missing
parameter name renders Python's `None` into the f-string, giving
`"/None"`. -/
def getRequestPath (e : Event) : Except PyErr (Option String) :=
  match proxySplit (e.resource.getD ("/")).toList with
  | some pn =>
    match e.pathParameters with
    | none => .error .keyError
    | some pp => .ok (some ("/" ++ ((pp.lookup (String.mk pn.2)).getD ("None"))))
  | none => .ok e.path

/-- The `ApigwPath` object state after `__init__` (gateway.py lines
31-42). -/
structure ApigwPathInfo where
  version : Option String
  apigwStage : String
  path : Option String
  apiPrefix : String
  pathMapping : String
  deriving DecidableEq, Repr

/-- `ApigwPath.__init__`.  `api_prefix` in the source is modelled as
`apiPrefix`, `apigw_stage` as `apigwStage`, `path_mapping` as
`pathMapping`. -/
def mkApigwPath (e : Event) : Except PyErr ApigwPathInfo :=
  match getApigwStage e with
  | .error err => .error err
  | .ok stage =>
    match getRequestPath e with
    | .error err => .error err
    | .ok p =>
      let apiPre := String.mk (rstripSlash (proxySub (e.resource.getD ("")).toList))
      let mapping :=
        if stage = "" ∧ p.getD ("") ≠ "" then
          String.mk (pyReplaceAll (apiPre ++ p.getD ("")).toList [] (e.path.getD ("")).toList)
        else ""
      .ok ⟨e.version, stage, p, apiPre, mapping⟩

/-- The `ApigwPath.prefix` property (gateway.py lines 44-51); named
`mountPrefix` here. -/
def mountPrefix (i : ApigwPathInfo) : String :=
  if i.apigwStage ≠ "" ∧ i.apigwStage ≠ "$default" then "/" ++ i.apigwStage ++ i.apiPrefix
  else if i.pathMapping ≠ "" then i.pathMapping ++ i.apiPrefix
  else i.apiPrefix

end ALP

namespace ALP

/-- Inversion of `ApigwPath.__init__`: a successfully constructed path-info
object satisfies the defining equations of its fields. -/
theorem mkApigwPath_ok_spec (e : Event) (info : ApigwPathInfo) (h : mkApigwPath e = .ok info) :
    getApigwStage e = .ok info.apigwStage ∧ getRequestPath e = .ok info.path ∧
    info.version = e.version ∧
    info.apiPrefix = String.mk (rstripSlash (proxySub (e.resource.getD ("")).toList)) ∧
    info.pathMapping = (if info.apigwStage = "" ∧ info.path.getD ("") ≠ "" then
      String.mk (pyReplaceAll (info.apiPrefix ++ info.path.getD ("")).toList []
        (e.path.getD ("")).toList)
    else "") := by
  unfold mkApigwPath at h
  cases hs : getApigwStage e with
  | error err => rw [hs] at h; simp at h
  | ok stage =>
    cases hp : getRequestPath e with
    | error err => rw [hs, hp] at h; simp at h
    | ok p =>
      rw [hs, hp] at h
      simp only [Except.ok.injEq] at h
      subst h
      simp

end ALP

namespace ALP

/-- **C1** Mount-prefix computation is a three-way branch over the PathInfo
fields: for every event whose normalization succeeds, if a non-empty stage
was detected and it is not the literal string `$default`, the prefix equals
`/` + stage + api-prefix; otherwise if a non-empty path-mapping exists, the
prefix equals path-mapping + api-prefix; otherwise the prefix equals
api-prefix alone — in particular a `$default` stage contributes nothing to
the prefix (its path-mapping having been forced empty at construction). -/
theorem C1_mount_prefix_three_way (e : Event) (info : ApigwPathInfo)
    (h : mkApigwPath e = .ok info) :
    (info.apigwStage ≠ "" → info.apigwStage ≠ "$default" →
      mountPrefix info = "/" ++ info.apigwStage ++ info.apiPrefix) ∧
    ((info.apigwStage = "" ∨ info.apigwStage = "$default") → info.pathMapping ≠ "" →
      mountPrefix info = info.pathMapping ++ info.apiPrefix) ∧
    ((info.apigwStage = "" ∨ info.apigwStage = "$default") → info.pathMapping = "" →
      mountPrefix info = info.apiPrefix) ∧
    (info.apigwStage = "$default" → mountPrefix info = info.apiPrefix) := by
  have hm := (mkApigwPath_ok_spec e info h).2.2.2.2
  unfold mountPrefix
  refine ⟨?_, ?_, ?_, ?_⟩
  · intro h1 h2
    rw [if_pos ⟨h1, h2⟩]
  · rintro (h1 | h1) h2 <;> rw [if_neg (by simp [h1]), if_pos h2]
  · rintro (h1 | h1) h2 <;> rw [if_neg (by simp [h1]), if_neg (by simp [h2])]
  · intro h1
    have hmap : info.pathMapping = "" := by
      rw [hm, if_neg]
      simp [h1]
    rw [if_neg (by simp [h1]), if_neg (by simp [hmap])]

/-- Concrete event for the C1 witness: managed-domain host with stage
`production` and greedy resource `/api/{proxy+}` (spec scenario). -/
def c1Event : Event :=
  { resource := some ("/api/{proxy+}"),
    pathParameters := some [("proxy", "test/1234/pix")],
    path := some ("/production/api/test/1234/pix"),
    headers := some [("host", "foo.execute-api.us-east-1.amazonaws.com")],
    requestContext := some { stage := some ("production") } }

/-- The path-info value the code computes for `c1Event`. -/
def c1Info : ApigwPathInfo :=
  ⟨none, "production", some ("/test/1234/pix"), "/api", ""⟩

theorem C1_mount_prefix_three_way_witness :
    mountPrefix c1Info = "/" ++ c1Info.apigwStage ++ c1Info.apiPrefix :=
  (C1_mount_prefix_three_way c1Event c1Info (by simp +decide [mkApigwPath, getApigwStage,
    getRequestPath, strIn, proxySplit, proxyHere, proxySub, rstripSlash, c1Event, c1Info])).1
    (by decide) (by decide)

end ALP

namespace ALP

/-- Counterexample event for C2: a greedy-proxy resource with api-prefix
`/api`, resolved proxy value `x`, and a raw path `/api/x/api/x` (a custom
domain whose base path itself equals `/api/x`).  The concatenation
api-prefix + logical-path = `/api/x` occurs twice in the raw path. -/
def c2Event : Event :=
  { resource := some ("/api/{proxy+}"),
    pathParameters := some [("proxy", "x")],
    path := some ("/api/x/api/x"),
    headers := some [] }

/-- The path-info value the code computes for `c2Event`. -/
def c2Info : ApigwPathInfo := ⟨none, "", some ("/x"), "/api", ""⟩

/-- **C2 counterexample** On `c2Event` the code's path-mapping is `""`
(Python `str.replace` deletes *every* occurrence of `/api/x`), while the
claim's "remove the first occurrence" rule yields `/api/x`.  So the claim
"the path-mapping equals the event's raw path with the first occurrence of
the substring (api-prefix + logical-path) removed" is false on the code. -/
theorem C2_path_mapping_counterexample :
    mkApigwPath c2Event = .ok c2Info ∧
    c2Info.pathMapping = "" ∧
    String.mk (specRemoveFirstOcc
      (c2Info.apiPrefix ++ c2Info.path.getD ("")).toList
      (c2Event.path.getD ("")).toList) = "/api/x" := by
  refine ⟨?_, by decide, by simp +decide [specRemoveFirstOcc, c2Event, c2Info]⟩
  simp +decide [mkApigwPath, getApigwStage, getRequestPath, strIn, proxySplit, proxyHere,
    proxySub, rstripSlash, pyReplaceAll, c2Event, c2Info]

/-- **C2 (amended)** For every event with no detected managed-domain stage
and a resolved non-empty logical path, the path-mapping equals the event's
raw path with *every* (non-overlapping, left-to-right) occurrence of the
substring (api-prefix + logical-path) removed; and for every event where a
managed-domain stage was detected (non-empty stage), the path-mapping is
the empty string. -/
theorem C2_path_mapping_amended (e : Event) (info : ApigwPathInfo)
    (h : mkApigwPath e = .ok info) :
    (info.apigwStage = "" → info.path.getD ("") ≠ "" →
      info.pathMapping = String.mk (pyReplaceAll
        (info.apiPrefix ++ info.path.getD ("")).toList [] (e.path.getD ("")).toList)) ∧
    (info.apigwStage ≠ "" → info.pathMapping = "") := by
  have hm := (mkApigwPath_ok_spec e info h).2.2.2.2
  constructor
  · intro h1 h2
    rw [hm, if_pos ⟨h1, h2⟩]
  · intro h1
    rw [hm, if_neg (by simp [h1])]

/-- Witness event for the amended C2: the spec's custom-domain scenario
(base path `/prefix`, api-prefix `/api`). -/
def c2wEvent : Event :=
  { resource := some ("/api/{proxy+}"),
    pathParameters := some [("proxy", "test/1234/pix")],
    path := some ("/prefix/api/test/1234/pix"),
    headers := some [] }

/-- The path-info value the code computes for `c2wEvent`. -/
def c2wInfo : ApigwPathInfo := ⟨none, "", some ("/test/1234/pix"), "/api", "/prefix"⟩

theorem C2_path_mapping_amended_witness :
    c2wInfo.pathMapping = String.mk (pyReplaceAll
      (c2wInfo.apiPrefix ++ c2wInfo.path.getD ("")).toList []
      (c2wEvent.path.getD ("")).toList) :=
  (C2_path_mapping_amended c2wEvent c2wInfo
    (by simp +decide [mkApigwPath, getApigwStage, getRequestPath, strIn, proxySplit,
      proxyHere, proxySub, rstripSlash, pyReplaceAll, c2wEvent, c2wInfo])).1
    (by decide) (by decide)

/-- **C10** For every gateway event whose resource field ends in a greedy
placeholder `/{name+}`, logical-path resolution reads `pathParameters`
unconditionally: if the key is absent the resolution raises `KeyError`
(instead of signalling the missing-path condition), and if it is present
but lacks the placeholder's name the resolved logical path is the literal
string `/None`. -/
theorem C10_greedy_path_parameters (e : Event) (pre name : Str)
    (hres : proxySplit (e.resource.getD ("/")).toList = some (pre, name)) :
    (e.pathParameters = none → getRequestPath e = .error .keyError) ∧
    (∀ pp, e.pathParameters = some pp → pp.lookup (String.mk name) = none →
      getRequestPath e = .ok (some ("/None"))) := by
  constructor
  · intro hpp
    unfold getRequestPath
    rw [hres, hpp]
  · intro pp hpp hw
    unfold getRequestPath
    rw [hres, hpp]
    simp [hw]

/-- Witness event for C10 with the `pathParameters` key absent. -/
def c10aEvent : Event := { resource := some ("/api/{proxy+}") }

/-- Witness event for C10 with `pathParameters` lacking the placeholder
name `proxy`. -/
def c10bEvent : Event :=
  { resource := some ("/api/{proxy+}"),
    pathParameters := some [("other", "v")] }

theorem C10_greedy_path_parameters_witness :
    getRequestPath c10aEvent = .error .keyError ∧
    getRequestPath c10bEvent = .ok (some ("/None")) :=
  ⟨(C10_greedy_path_parameters c10aEvent "/api".toList "proxy".toList (by decide)).1 rfl,
   (C10_greedy_path_parameters c10bEvent "/api".toList "proxy".toList (by decide)).2
     [("other", "v")] rfl (by decide)⟩

end ALP

namespace ALP

/-- Character classes appearing in the regexes that `_path_to_regex`
emits.  `[a-zA-Z0-9_]`. -/
def isWordCh (c : Char) : Bool :=
  ('a' ≤ c ∧ c ≤ 'z') ∨ ('A' ≤ c ∧ c ≤ 'Z') ∨ ('0' ≤ c ∧ c ≤ '9') ∨ c = '_'

/-- `[0-9]`. -/
def isDigitCh (c : Char) : Bool := '0' ≤ c ∧ c ≤ '9'

/-- `[0-9a-f]`. -/
def isHexCh (c : Char) : Bool := isDigitCh c ∨ ('a' ≤ c ∧ c ≤ 'f')

/-- `[+-]`. -/
def isSignCh (c : Char) : Bool := c = '+' ∨ c = '-'

/-- `.` — any character except a newline. -/
def isDotAny (c : Char) : Bool := c ≠ '\n'

/-- Abstract syntax of the regular expressions built by `_path_to_regex`:
empty string, single-character class, concatenation, alternation, Kleene
star.  (A literal character `c` is `cls (· = c)`.) -/
inductive RE where
  | eps
  | cls (p : Char → Bool)
  | cat (r1 r2 : RE)
  | alt (r1 r2 : RE)
  | star (r : RE)

/-- Full-match semantics of `RE` — the standard regular-language
membership, as an executable decision procedure (concatenation and star
try every split; `star` consumes at least one character per iteration). -/
def reMatch : RE → Str → Bool
  | .eps, s => s.isEmpty
  | .cls p, s =>
    match s with
    | [c] => p c
    | _ => false
  | .alt r1 r2, s => reMatch r1 s || reMatch r2 s
  | .cat r1 r2, s =>
    (List.range (s.length + 1)).any (fun i => reMatch r1 (s.take i) && reMatch r2 (s.drop i))
  | .star r, s =>
    s.isEmpty ||
      (List.range s.length).attach.any
        (fun i => reMatch r (s.take (i.1 + 1)) && reMatch (.star r) (s.drop (i.1 + 1)))
termination_by r s => (sizeOf r, s.length)
decreasing_by
  all_goals first
    | exact Prod.Lex.left _ _ (by
        simp only [RE.alt.sizeOf_spec, RE.cat.sizeOf_spec, RE.star.sizeOf_spec]; omega)
    | exact Prod.Lex.right _ (by
        have hi := i.2
        simp only [List.mem_range] at hi
        simp only [List.length_drop]
        omega)

/-- `r+` is `r r*`. -/
def plusRE (r : RE) : RE := .cat r (.star r)

/-- `r?` is `(r | ε)`. -/
def optRE (r : RE) : RE := .alt r .eps

/-- `r{n}` unrolled. -/
def repRE : Nat → RE → RE
  | 0, _ => .eps
  | n + 1, r => .cat r (repRE n r)

/-- The group `([a-zA-Z0-9_]+)` emitted for `<name>` and `<string:name>`. -/
def wordGroupRE : RE := plusRE (.cls isWordCh)

/-- The group `([0-9]+)` emitted for `<int:name>`. -/
def intGroupRE : RE := plusRE (.cls isDigitCh)

/-- The group `([+-]?[0-9]+.[0-9]+)` emitted for `<float:name>` — the dot
is unescaped in the source, so the middle position is `.` (any character
except newline). -/
def floatGroupRE : RE :=
  .cat (optRE (.cls isSignCh)) (.cat (plusRE (.cls isDigitCh))
    (.cat (.cls isDotAny) (plusRE (.cls isDigitCh))))

/-- The group `([0-9a-f]{8}-[0-9a-f]{4}-[0-9a-f]{4}-[0-9a-f]{4}-[0-9a-f]{12})`
emitted for `<uuid:name>`. -/
def uuidGroupRE : RE :=
  .cat (repRE 8 (.cls isHexCh)) (.cat (.cls (fun c => c = '-'))
    (.cat (repRE 4 (.cls isHexCh)) (.cat (.cls (fun c => c = '-'))
      (.cat (repRE 4 (.cls isHexCh)) (.cat (.cls (fun c => c = '-'))
        (.cat (repRE 4 (.cls isHexCh)) (.cat (.cls (fun c => c = '-'))
          (repRE 12 (.cls isHexCh)))))))))

end ALP

namespace ALP

theorem reMatch_cls_iff (p : Char → Bool) (s : Str) :
    reMatch (.cls p) s = true ↔ ∃ c, s = [c] ∧ p c = true := by
  match s with
  | [] => simp [reMatch]
  | [c] => simp [reMatch]
  | c1 :: c2 :: rest => simp [reMatch]

theorem reMatch_cat_iff (r1 r2 : RE) (s : Str) :
    reMatch (.cat r1 r2) s = true ↔
      ∃ t u, s = t ++ u ∧ reMatch r1 t = true ∧ reMatch r2 u = true := by
  rw [reMatch]
  simp only [List.any_eq_true, List.mem_range, Bool.and_eq_true]
  constructor
  · rintro ⟨i, _, h1, h2⟩
    exact ⟨s.take i, s.drop i, (List.take_append_drop i s).symm, h1, h2⟩
  · rintro ⟨t, u, rfl, h1, h2⟩
    refine ⟨t.length, by simp; omega, ?_, ?_⟩
    · rw [List.take_left]
      exact h1
    · rw [List.drop_left]
      exact h2

theorem reMatch_star_cls_aux (p : Char → Bool) :
    ∀ (n : Nat) (s : Str), s.length = n →
      (reMatch (.star (.cls p)) s = true ↔ ∀ c ∈ s, p c = true) := by
  intro n
  induction n using Nat.strong_induction_on with
  | _ n IH =>
    intro s hs
    cases s with
    | nil =>
      rw [reMatch]
      simp
    | cons c rest =>
      rw [reMatch]
      simp only [List.isEmpty_cons, Bool.false_or, List.any_eq_true, List.mem_attach,
        Bool.and_eq_true, true_and, Subtype.exists, List.mem_range]
      constructor
      · rintro ⟨i, hi, h1, h2⟩
        rw [show (c :: rest).take (i + 1) = c :: rest.take i from rfl,
          reMatch_cls_iff] at h1
        obtain ⟨c', hc', hp⟩ := h1
        rw [List.cons.injEq] at hc'
        obtain ⟨rfl, htk⟩ := hc'
        rw [show (c :: rest).drop (i + 1) = rest.drop i from rfl] at h2
        intro x hx
        rcases List.mem_cons.mp hx with rfl | hx'
        · exact hp
        · rcases List.take_eq_nil_iff.mp htk with h | h
          · rw [h] at h2
            rw [List.drop_zero] at h2
            have hlen : rest.length < n := by
              simp only [List.length_cons] at hs
              omega
            exact (IH rest.length hlen rest rfl).mp h2 x hx'
          · rw [h] at hx'
            simp at hx'
      · intro h
        refine ⟨0, by simp, ?_, ?_⟩
        · rw [show (c :: rest).take 1 = [c] from rfl, reMatch_cls_iff]
          exact ⟨c, rfl, h c (by simp)⟩
        · rw [show (c :: rest).drop 1 = rest from rfl]
          have hlen : rest.length < n := by
            simp only [List.length_cons] at hs
            omega
          exact (IH rest.length hlen rest rfl).mpr
            (fun x hx => h x (List.mem_cons_of_mem _ hx))

theorem reMatch_star_cls_iff (p : Char → Bool) (s : Str) :
    reMatch (.star (.cls p)) s = true ↔ ∀ c ∈ s, p c = true :=
  reMatch_star_cls_aux p s.length s rfl

theorem reMatch_plus_cls_iff (p : Char → Bool) (s : Str) :
    reMatch (plusRE (.cls p)) s = true ↔ s ≠ [] ∧ ∀ c ∈ s, p c = true := by
  unfold plusRE
  rw [reMatch_cat_iff]
  constructor
  · rintro ⟨t, u, rfl, h1, h2⟩
    rw [reMatch_cls_iff] at h1
    obtain ⟨c, rfl, hp⟩ := h1
    rw [reMatch_star_cls_iff] at h2
    refine ⟨by simp, ?_⟩
    intro x hx
    rcases List.mem_append.mp hx with hx' | hx'
    · rcases List.mem_singleton.mp hx' with rfl
      exact hp
    · exact h2 x hx'
  · rintro ⟨hne, h⟩
    cases s with
    | nil => exact absurd rfl hne
    | cons c rest =>
      refine ⟨[c], rest, rfl, ?_, ?_⟩
      · rw [reMatch_cls_iff]
        exact ⟨c, rfl, h c (by simp)⟩
      · rw [reMatch_star_cls_iff]
        exact fun x hx => h x (List.mem_cons_of_mem _ hx)

theorem reMatch_opt_cls_iff (p : Char → Bool) (s : Str) :
    reMatch (optRE (.cls p)) s = true ↔ s = [] ∨ ∃ c, s = [c] ∧ p c = true := by
  unfold optRE
  rw [reMatch]
  simp only [Bool.or_eq_true, reMatch_cls_iff]
  constructor
  · rintro (h | h)
    · right; exact h
    · left
      rw [reMatch] at h
      simp at h
      exact h
  · rintro (rfl | ⟨c, rfl, hc⟩)
    · right
      rw [reMatch]
      rfl
    · left
      exact ⟨c, rfl, hc⟩

theorem reMatch_rep_cls_iff (p : Char → Bool) :
    ∀ (n : Nat) (s : Str),
      reMatch (repRE n (.cls p)) s = true ↔ s.length = n ∧ ∀ c ∈ s, p c = true := by
  intro n
  induction n with
  | zero =>
    intro s
    simp only [repRE]
    rw [reMatch]
    simp [List.isEmpty_iff, List.length_eq_zero]
    rintro rfl
    simp
  | succ m IH =>
    intro s
    simp only [repRE]
    rw [reMatch_cat_iff]
    constructor
    · rintro ⟨t, u, rfl, h1, h2⟩
      rw [reMatch_cls_iff] at h1
      obtain ⟨c, rfl, hp⟩ := h1
      obtain ⟨hlen, hall⟩ := (IH u).mp h2
      refine ⟨by simp [hlen], ?_⟩
      intro x hx
      rcases List.mem_cons.mp hx with rfl | hx'
      · exact hp
      · exact hall x hx'
    · rintro ⟨hlen, hall⟩
      cases s with
      | nil => simp at hlen
      | cons c rest =>
        refine ⟨[c], rest, rfl, ?_, ?_⟩
        · rw [reMatch_cls_iff]
          exact ⟨c, rfl, hall c (by simp)⟩
        · refine (IH rest).mpr ⟨by simpa using hlen, ?_⟩
          exact fun x hx => hall x (List.mem_cons_of_mem _ hx)

end ALP

namespace ALP

/-- The four capture-group kinds that `_path_to_regex` can emit for a
typed placeholder (the bare `<name>` and `<string:name>` forms share the
word-class group). -/
inductive GroupKind where
  | word
  | int
  | float
  | uuid
  deriving DecidableEq, Repr

/-- The regex `_path_to_regex` emits for each group kind. -/
def groupRE : GroupKind → RE
  | .word => wordGroupRE
  | .int => intGroupRE
  | .float => floatGroupRE
  | .uuid => uuidGroupRE

/-- Executable matcher for the tail of the float group after the optional
sign: `[0-9]+.[0-9]+` (the unescaped dot matches any non-newline
character). -/
def floatTailB (s : Str) : Bool :=
  (List.range s.length).any fun i =>
    0 < i && (s.take i).all isDigitCh &&
      (match s.drop i with
       | c :: d2 => isDotAny c && !d2.isEmpty && d2.all isDigitCh
       | [] => false)

/-- Consume `n` lowercase-hex characters, returning the rest. -/
def hexChunk (n : Nat) (s : Str) : Option Str :=
  if (s.take n).length == n && (s.take n).all isHexCh then some (s.drop n) else none

/-- Consume one `-`. -/
def dashChunk : Str → Option Str
  | '-' :: r => some r
  | _ => none

/-- Executable matcher for the uuid group, 8-4-4-4-12 lowercase hex. -/
def uuidMatchB (s : Str) : Bool :=
  match ((((((((hexChunk 8 s).bind dashChunk).bind (hexChunk 4)).bind dashChunk).bind
      (hexChunk 4)).bind dashChunk).bind (hexChunk 4)).bind dashChunk).bind (hexChunk 12) with
  | some r9 => r9.isEmpty
  | none => false

/-- Executable full-match semantics of each group's regex; proved
equivalent to `reMatch` of `groupRE` below. -/
def groupMatchB : GroupKind → Str → Bool
  | .word, s => !s.isEmpty && s.all isWordCh
  | .int, s => !s.isEmpty && s.all isDigitCh
  | .float, s =>
    match s with
    | [] => false
    | c :: rest => if isSignCh c then floatTailB rest else floatTailB (c :: rest)
  | .uuid, s => uuidMatchB s

theorem groupMatchB_word_iff (s : Str) :
    groupMatchB .word s = true ↔ reMatch (groupRE .word) s = true := by
  simp only [groupMatchB, groupRE, wordGroupRE, reMatch_plus_cls_iff, Bool.and_eq_true,
    Bool.not_eq_true', List.isEmpty_eq_false, List.all_eq_true]

theorem groupMatchB_int_iff (s : Str) :
    groupMatchB .int s = true ↔ reMatch (groupRE .int) s = true := by
  simp only [groupMatchB, groupRE, intGroupRE, reMatch_plus_cls_iff, Bool.and_eq_true,
    Bool.not_eq_true', List.isEmpty_eq_false, List.all_eq_true]

theorem floatTailB_iff (s : Str) :
    floatTailB s = true ↔
      ∃ d1 c d2, s = d1 ++ c :: d2 ∧ d1 ≠ [] ∧ (∀ x ∈ d1, isDigitCh x = true) ∧
        isDotAny c = true ∧ d2 ≠ [] ∧ ∀ x ∈ d2, isDigitCh x = true := by
  unfold floatTailB
  simp only [List.any_eq_true, List.mem_range, Bool.and_eq_true, List.all_eq_true,
    decide_eq_true_eq]
  constructor
  · rintro ⟨i, hilen, ⟨hipos, hd1⟩, hrest⟩
    match hdrop : s.drop i with
    | [] => rw [hdrop] at hrest; exact absurd hrest (by simp)
    | c :: d2 =>
      rw [hdrop] at hrest
      simp only [Bool.and_eq_true, Bool.not_eq_true', List.isEmpty_eq_false,
        List.all_eq_true] at hrest
      refine ⟨s.take i, c, d2, ?_, ?_, hd1, hrest.1.1, hrest.1.2, hrest.2⟩
      · rw [← hdrop, List.take_append_drop]
      · intro h
        have hlen0 : (s.take i).length = 0 := by rw [h]; rfl
        rw [List.length_take] at hlen0
        omega
  · rintro ⟨d1, c, d2, rfl, hne, hd1, hc, hd2ne, hd2⟩
    refine ⟨d1.length, ?_, ⟨?_, ?_⟩, ?_⟩
    · simp only [List.length_append, List.length_cons]
      omega
    · cases d1 with
      | nil => exact absurd rfl hne
      | cons a l => simp
    · rw [List.take_left]
      exact hd1
    · rw [List.drop_left]
      simp only [Bool.and_eq_true, Bool.not_eq_true', List.isEmpty_eq_false,
        List.all_eq_true]
      exact ⟨⟨hc, hd2ne⟩, hd2⟩

theorem reMatch_float_iff (s : Str) :
    reMatch floatGroupRE s = true ↔
      ∃ sgn rest, s = sgn ++ rest ∧
        (sgn = [] ∨ ∃ c, sgn = [c] ∧ isSignCh c = true) ∧
        (∃ d1 c d2, rest = d1 ++ c :: d2 ∧ d1 ≠ [] ∧ (∀ x ∈ d1, isDigitCh x = true) ∧
          isDotAny c = true ∧ d2 ≠ [] ∧ ∀ x ∈ d2, isDigitCh x = true) := by
  unfold floatGroupRE
  rw [reMatch_cat_iff]
  constructor
  · rintro ⟨sgn, rest, rfl, h1, h2⟩
    rw [reMatch_opt_cls_iff] at h1
    rw [reMatch_cat_iff] at h2
    obtain ⟨d1, u, rfl, hd1, hu⟩ := h2
    rw [reMatch_plus_cls_iff] at hd1
    rw [reMatch_cat_iff] at hu
    obtain ⟨dot, d2, rfl, hdot, hd2⟩ := hu
    rw [reMatch_cls_iff] at hdot
    obtain ⟨c, rfl, hc⟩ := hdot
    rw [reMatch_plus_cls_iff] at hd2
    exact ⟨sgn, d1 ++ [c] ++ d2, by simp, h1,
      d1, c, d2, by simp, hd1.1, hd1.2, hc, hd2.1, hd2.2⟩
  · rintro ⟨sgn, rest, rfl, hsgn, d1, c, d2, rfl, hne, hd1, hc, hd2ne, hd2⟩
    refine ⟨sgn, d1 ++ c :: d2, rfl, ?_, ?_⟩
    · rw [reMatch_opt_cls_iff]
      exact hsgn
    · rw [reMatch_cat_iff]
      refine ⟨d1, c :: d2, rfl, ?_, ?_⟩
      · rw [reMatch_plus_cls_iff]
        exact ⟨hne, hd1⟩
      · rw [reMatch_cat_iff]
        refine ⟨[c], d2, rfl, ?_, ?_⟩
        · rw [reMatch_cls_iff]
          exact ⟨c, rfl, hc⟩
        · rw [reMatch_plus_cls_iff]
          exact ⟨hd2ne, hd2⟩

theorem sign_not_digit (d : Char) (hd : isDigitCh d = true) : isSignCh d = false := by
  unfold isDigitCh at hd
  unfold isSignCh
  simp only [decide_eq_true_eq] at hd
  simp only [Bool.or_eq_false_iff, decide_eq_false_iff_not]
  rintro (rfl | rfl)
  · exact absurd hd (by decide)
  · exact absurd hd (by decide)

theorem groupMatchB_float_iff (s : Str) :
    groupMatchB .float s = true ↔ reMatch (groupRE .float) s = true := by
  rw [groupRE, reMatch_float_iff]
  constructor
  · intro h
    match s, h with
    | c :: rest, h =>
      by_cases hsg : isSignCh c = true
      · rw [groupMatchB, if_pos hsg] at h
        obtain ⟨d1, c', d2, hrest, hprops⟩ := (floatTailB_iff rest).mp h
        exact ⟨[c], rest, by simp, Or.inr ⟨c, rfl, hsg⟩, d1, c', d2, hrest, hprops⟩
      · rw [groupMatchB, if_neg hsg] at h
        obtain ⟨d1, c', d2, hrest, hprops⟩ := (floatTailB_iff (c :: rest)).mp h
        exact ⟨[], c :: rest, by simp, Or.inl rfl, d1, c', d2, hrest, hprops⟩
  · rintro ⟨sgn, rest, rfl, hsgn, htail⟩
    rcases hsgn with rfl | ⟨c, rfl, hc⟩
    · simp only [List.nil_append]
      obtain ⟨d1, c', d2, heq, hne, hd1, hrest⟩ := htail
      cases d1 with
      | nil => exact absurd rfl hne
      | cons a l =>
        rw [List.cons_append] at heq
        subst heq
        rw [groupMatchB, if_neg (by
          rw [sign_not_digit a (hd1 a (by simp))]
          exact Bool.false_ne_true)]
        exact (floatTailB_iff _).mpr ⟨a :: l, c', d2, by simp, by simp, hd1, hrest⟩
    · rw [List.singleton_append, groupMatchB, if_pos hc]
      exact (floatTailB_iff rest).mpr htail

end ALP

namespace ALP

theorem hexChunk_eq_some_iff (n : Nat) (s r : Str) :
    hexChunk n s = some r ↔
      n ≤ s.length ∧ (∀ c ∈ s.take n, isHexCh c = true) ∧ r = s.drop n := by
  constructor
  · intro hsome
    rw [hexChunk] at hsome
    by_cases hc : ((s.take n).length == n && (s.take n).all isHexCh) = true
    · rw [if_pos hc] at hsome
      simp only [Option.some.injEq] at hsome
      simp only [Bool.and_eq_true, beq_iff_eq, List.all_eq_true] at hc
      have hlen : n ≤ s.length := by
        have h1 := hc.1
        rw [List.length_take] at h1
        omega
      exact ⟨hlen, hc.2, hsome.symm⟩
    · rw [if_neg hc] at hsome
      cases hsome
  · rintro ⟨hlen, hall, rfl⟩
    rw [hexChunk, if_pos ?hc]
    case hc =>
      simp only [Bool.and_eq_true, beq_iff_eq, List.all_eq_true, List.length_take]
      exact ⟨by omega, hall⟩

theorem dashChunk_eq_some_iff (s r : Str) :
    dashChunk s = some r ↔ s = '-' :: r := by
  constructor
  · intro h
    unfold dashChunk at h
    split at h
    · simp only [Option.some.injEq] at h
      rw [h]
    · cases h
  · rintro rfl
    rfl

theorem reMatch_cat_rep_cls_iff (p : Char → Bool) (n : Nat) (r : RE) (s : Str) :
    reMatch (.cat (repRE n (.cls p)) r) s = true ↔
      n ≤ s.length ∧ (∀ c ∈ s.take n, p c = true) ∧ reMatch r (s.drop n) = true := by
  rw [reMatch_cat_iff]
  constructor
  · rintro ⟨t, u, rfl, h1, h2⟩
    obtain ⟨hlen, hall⟩ := (reMatch_rep_cls_iff p n t).mp h1
    subst hlen
    rw [List.take_left, List.drop_left]
    exact ⟨by simp, hall, h2⟩
  · rintro ⟨hlen, hall, hr⟩
    refine ⟨s.take n, s.drop n, (List.take_append_drop n s).symm, ?_, hr⟩
    refine (reMatch_rep_cls_iff p n (s.take n)).mpr ⟨?_, hall⟩
    rw [List.length_take]
    omega

theorem reMatch_cat_cls_iff (p : Char → Bool) (r : RE) (s : Str) :
    reMatch (.cat (.cls p) r) s = true ↔
      ∃ c rest, s = c :: rest ∧ p c = true ∧ reMatch r rest = true := by
  rw [reMatch_cat_iff]
  constructor
  · rintro ⟨t, u, rfl, h1, h2⟩
    obtain ⟨c, rfl, hc⟩ := (reMatch_cls_iff p t).mp h1
    exact ⟨c, u, rfl, hc, h2⟩
  · rintro ⟨c, rest, rfl, hc, hr⟩
    exact ⟨[c], rest, rfl, (reMatch_cls_iff p [c]).mpr ⟨c, rfl, hc⟩, hr⟩

theorem groupMatchB_uuid_iff (s : Str) :
    groupMatchB .uuid s = true ↔ reMatch (groupRE .uuid) s = true := by
  rw [groupRE]
  unfold uuidGroupRE
  rw [groupMatchB, uuidMatchB]
  rw [reMatch_cat_rep_cls_iff]
  constructor
  · intro h
    split at h
    case h_2 => cases h
    case h_1 r9 hchain =>
      simp only [Option.bind_eq_some] at hchain
      obtain ⟨r8, ⟨r7, ⟨r6, ⟨r5, ⟨r4, ⟨r3, ⟨r2, ⟨r1, h1, h2⟩, h3⟩, h4⟩, h5⟩, h6⟩, h7⟩, h8⟩, h9⟩ := hchain
      rw [hexChunk_eq_some_iff] at h1 h3 h5 h7 h9
      rw [dashChunk_eq_some_iff] at h2 h4 h6 h8
      obtain ⟨l1, a1, rfl⟩ := h1
      refine ⟨l1, a1, ?_⟩
      rw [h2]
      rw [reMatch_cat_cls_iff]
      refine ⟨'-', r2, rfl, by simp, ?_⟩
      obtain ⟨l3, a3, rfl⟩ := h3
      rw [reMatch_cat_rep_cls_iff]
      refine ⟨l3, a3, ?_⟩
      rw [h4, reMatch_cat_cls_iff]
      refine ⟨'-', r4, rfl, by simp, ?_⟩
      obtain ⟨l5, a5, rfl⟩ := h5
      rw [reMatch_cat_rep_cls_iff]
      refine ⟨l5, a5, ?_⟩
      rw [h6, reMatch_cat_cls_iff]
      refine ⟨'-', r6, rfl, by simp, ?_⟩
      obtain ⟨l7, a7, rfl⟩ := h7
      rw [reMatch_cat_rep_cls_iff]
      refine ⟨l7, a7, ?_⟩
      rw [h8, reMatch_cat_cls_iff]
      refine ⟨'-', r8, rfl, by simp, ?_⟩
      obtain ⟨l9, a9, rfl⟩ := h9
      rw [List.isEmpty_iff] at h
      have hlen : r8.length = 12 := by
        have hd : (r8.drop 12).length = 0 := by rw [h]; rfl
        rw [List.length_drop] at hd
        omega
      rw [reMatch_rep_cls_iff]
      refine ⟨hlen, ?_⟩
      intro c hc
      exact a9 c (by rw [List.take_of_length_le (by omega)]; exact hc)
  · rintro ⟨l1, a1, h2⟩
    rw [reMatch_cat_cls_iff] at h2
    obtain ⟨d1, r2, hdrop1, hd1, h3⟩ := h2
    rw [reMatch_cat_rep_cls_iff] at h3
    obtain ⟨l3, a3, h4⟩ := h3
    rw [reMatch_cat_cls_iff] at h4
    obtain ⟨d2, r4, hdrop2, hd2, h5⟩ := h4
    rw [reMatch_cat_rep_cls_iff] at h5
    obtain ⟨l5, a5, h6⟩ := h5
    rw [reMatch_cat_cls_iff] at h6
    obtain ⟨d3, r6, hdrop3, hd3, h7⟩ := h6
    rw [reMatch_cat_rep_cls_iff] at h7
    obtain ⟨l7, a7, h8⟩ := h7
    rw [reMatch_cat_cls_iff] at h8
    obtain ⟨d4, r8, hdrop4, hd4, h9⟩ := h8
    rw [reMatch_rep_cls_iff] at h9
    obtain ⟨l9, a9⟩ := h9
    simp only [decide_eq_true_eq] at hd1 hd2 hd3 hd4
    subst hd1
    subst hd2
    subst hd3
    subst hd4
    have e1 : hexChunk 8 s = some (s.drop 8) := (hexChunk_eq_some_iff 8 s _).mpr ⟨l1, a1, rfl⟩
    have e2 : dashChunk (s.drop 8) = some r2 := (dashChunk_eq_some_iff _ r2).mpr hdrop1
    have e3 : hexChunk 4 r2 = some (r2.drop 4) := (hexChunk_eq_some_iff 4 r2 _).mpr ⟨l3, a3, rfl⟩
    have e4 : dashChunk (r2.drop 4) = some r4 := (dashChunk_eq_some_iff _ r4).mpr hdrop2
    have e5 : hexChunk 4 r4 = some (r4.drop 4) := (hexChunk_eq_some_iff 4 r4 _).mpr ⟨l5, a5, rfl⟩
    have e6 : dashChunk (r4.drop 4) = some r6 := (dashChunk_eq_some_iff _ r6).mpr hdrop3
    have e7 : hexChunk 4 r6 = some (r6.drop 4) := (hexChunk_eq_some_iff 4 r6 _).mpr ⟨l7, a7, rfl⟩
    have e8 : dashChunk (r6.drop 4) = some r8 := (dashChunk_eq_some_iff _ r8).mpr hdrop4
    have e9 : hexChunk 12 r8 = some (r8.drop 12) := (hexChunk_eq_some_iff 12 r8 _).mpr ⟨by omega, fun c hc => a9 c (List.mem_of_mem_take hc), rfl⟩
    rw [e1]
    simp only [Option.some_bind]
    rw [e2]
    simp only [Option.some_bind]
    rw [e3]
    simp only [Option.some_bind]
    rw [e4]
    simp only [Option.some_bind]
    rw [e5]
    simp only [Option.some_bind]
    rw [e6]
    simp only [Option.some_bind]
    rw [e7]
    simp only [Option.some_bind]
    rw [e8]
    simp only [Option.some_bind]
    rw [e9]
    rw [List.isEmpty_iff]
    rw [List.drop_eq_nil_iff]
    omega

theorem groupMatchB_iff (k : GroupKind) (s : Str) :
    groupMatchB k s = true ↔ reMatch (groupRE k) s = true := by
  cases k with
  | word => exact groupMatchB_word_iff s
  | int => exact groupMatchB_int_iff s
  | float => exact groupMatchB_float_iff s
  | uuid => exact groupMatchB_uuid_iff s

end ALP

namespace ALP

theorem findSome?_eq_some_ex {α β : Type} (f : α → Option β) (l : List α) (b : β)
    (h : l.findSome? f = some b) : ∃ a ∈ l, f a = some b := by
  induction l with
  | nil => cases h
  | cons x xs IH =>
    rw [List.findSome?_cons] at h
    cases hf : f x with
    | some v =>
      rw [hf] at h
      cases h
      exact ⟨x, by simp, hf⟩
    | none =>
      rw [hf] at h
      obtain ⟨a, ha, hfa⟩ := IH h
      exact ⟨a, by simp [ha], hfa⟩

theorem findSome?_isSome_of_mem {α β : Type} (f : α → Option β) (l : List α) (a : α)
    (ha : a ∈ l) (hf : (f a).isSome = true) : (l.findSome? f).isSome = true := by
  induction l with
  | nil => cases ha
  | cons x xs IH =>
    rw [List.findSome?_cons]
    cases hx : f x with
    | some v => simp
    | none =>
      rcases List.mem_cons.mp ha with rfl | ha'
      · rw [hx] at hf
        cases hf
      · exact IH ha'

/-- One element of a compiled match-expression: a literal character or a
typed capturing group. -/
inductive Atom where
  | lit (c : Char)
  | grp (k : GroupKind)
  deriving DecidableEq, Repr

/-- Greedy backtracking matcher for an anchored sequence of atoms,
modelling `re.match` with the `^...$` anchors that `_path_to_regex`
inserts: returns the captured group texts of the full match, or `none`
when the whole path cannot be matched.  Group extents are tried longest
first, as Python's greedy engine does for these sub-expressions. -/
def matchCaps : List Atom → Str → Option (List Str)
  | [], s => if s.isEmpty then some [] else none
  | .lit _ :: _, [] => none
  | .lit c :: as, x :: xs => if x = c then matchCaps as xs else none
  | .grp k :: as, s =>
    ((List.range (s.length + 1)).reverse).findSome? fun n =>
      if groupMatchB k (s.take n) = true then
        (matchCaps as (s.drop n)).map (fun cs => s.take n :: cs)
      else none

/-- A decomposition of `s` along an atom sequence: literals consume their
character, each group consumes a chunk accepted by its class, and the
captured chunks are listed in order.  This is the declarative meaning of
an anchored match of the compiled expression. -/
def Decomp : List Atom → Str → List Str → Prop
  | [], s, cs => s = [] ∧ cs = []
  | .lit c :: as, s, cs => ∃ s', s = c :: s' ∧ Decomp as s' cs
  | .grp k :: as, s, cs =>
    ∃ t s' cs', s = t ++ s' ∧ groupMatchB k t = true ∧ cs = t :: cs' ∧ Decomp as s' cs'

theorem matchCaps_sound (atoms : List Atom) (s : Str) (cs : List Str)
    (h : matchCaps atoms s = some cs) : Decomp atoms s cs := by
  induction atoms generalizing s cs with
  | nil =>
    rw [matchCaps] at h
    by_cases he : s.isEmpty = true
    · rw [if_pos he] at h
      cases h
      exact ⟨List.isEmpty_iff.mp he, rfl⟩
    · rw [if_neg he] at h
      cases h
  | cons a as IH =>
    cases a with
    | lit c =>
      cases s with
      | nil =>
        rw [matchCaps] at h
        cases h
      | cons x xs =>
        rw [matchCaps] at h
        by_cases hx : x = c
        · rw [if_pos hx] at h
          subst hx
          exact ⟨xs, rfl, IH xs cs h⟩
        · rw [if_neg hx] at h
          cases h
    | grp k =>
      rw [matchCaps] at h
      obtain ⟨n, _, hn⟩ := findSome?_eq_some_ex _ _ _ h
      by_cases hg : groupMatchB k (s.take n) = true
      · rw [if_pos hg] at hn
        cases hmc : matchCaps as (s.drop n) with
        | none => rw [hmc] at hn; cases hn
        | some cs' =>
          rw [hmc] at hn
          simp only [Option.map_some', Option.some.injEq] at hn
          subst hn
          exact ⟨s.take n, s.drop n, cs', (List.take_append_drop n s).symm, hg, rfl,
            IH _ _ hmc⟩
      · rw [if_neg hg] at hn
        cases hn

theorem matchCaps_complete (atoms : List Atom) (s : Str) (cs : List Str)
    (h : Decomp atoms s cs) : (matchCaps atoms s).isSome = true := by
  induction atoms generalizing s cs with
  | nil =>
    obtain ⟨rfl, rfl⟩ := h
    rw [matchCaps]
    simp
  | cons a as IH =>
    cases a with
    | lit c =>
      obtain ⟨s', rfl, hd⟩ := h
      rw [matchCaps]
      rw [if_pos rfl]
      exact IH s' cs hd
    | grp k =>
      obtain ⟨t, s', cs', rfl, hg, rfl, hd⟩ := h
      rw [matchCaps]
      apply findSome?_isSome_of_mem _ _ t.length
      · simp only [List.mem_reverse, List.mem_range, List.length_append]
        omega
      · rw [List.take_left, List.drop_left, if_pos hg]
        have := IH s' cs' hd
        cases hmc : matchCaps as s' with
        | none => rw [hmc] at this; cases this
        | some v => simp

end ALP

namespace ALP

/-- Placeholder kinds of the template grammar: `<name>`, `<string:name>`,
`<int:name>`, `<float:name>`, `<uuid:name>`. -/
inductive PhKind where
  | bare
  | strP
  | intP
  | floatP
  | uuidP
  deriving DecidableEq, Repr

/-- A template token: a literal character, a typed placeholder, or an
inline-regex placeholder `<regex(pattern):name>`. -/
inductive Tok where
  | lit (c : Char)
  | ph (k : PhKind) (name : Str)
  | rgx (pattern name : Str)
  deriving DecidableEq, Repr

/-- Capture group emitted for each placeholder kind (`_path_to_regex`
lines 11-14: the bare and `string:` forms share `([a-zA-Z0-9_]+)`). -/
def groupOfPh : PhKind → GroupKind
  | .bare => .word
  | .strP => .word
  | .intP => .int
  | .floatP => .float
  | .uuidP => .uuid

/-- Parse `name>` — a maximal non-empty `[a-zA-Z0-9_]+` run followed by
`>`; returns the name and the text after the `>`. -/
def parseName (s : Str) : Option (Str × Str) :=
  let w := s.takeWhile isWordCh
  let r := s.dropWhile isWordCh
  if w ≠ [] ∧ r.head? = some '>' then some (w, r.tail) else none

/-- Result of trying to read one placeholder right after a `<`. -/
inductive PhParse where
  | found (k : PhKind) (name : Str) (rest : Str)
  | noPh
  | abort
  deriving DecidableEq, Repr

/-- Try the literal `kw` followed by `name>`. -/
def tryKw (kw : Str) (k : PhKind) (r : Str) : Option (PhKind × Str × Str) :=
  if kw.isPrefixOf r then (parseName (r.drop kw.length)).map (fun p => (k, p.1, p.2))
  else none

/-- Classify the text after a `<`: a placeholder of one of the five typed
shapes (mutually exclusive, mirroring the successive `re.sub` passes of
`_path_to_regex`, bare first), an inline-regex placeholder (`abort` — its
pattern would be spliced verbatim into the regex, outside this model), or
no placeholder at all (the `<` stays a literal character). -/
def parsePh (r : Str) : PhParse :=
  match parseName r with
  | some p => .found .bare p.1 p.2
  | none =>
    match tryKw "string:".toList .strP r with
    | some q => .found q.1 q.2.1 q.2.2
    | none =>
      match tryKw "int:".toList .intP r with
      | some q => .found q.1 q.2.1 q.2.2
      | none =>
        match tryKw "float:".toList .floatP r with
        | some q => .found q.1 q.2.1 q.2.2
        | none =>
          match tryKw "uuid:".toList .uuidP r with
          | some q => .found q.1 q.2.1 q.2.2
          | none => if "regex".toList.isPrefixOf r then .abort else .noPh

theorem parseName_rest_lt (s w rest : Str) (h : parseName s = some (w, rest)) :
    rest.length < s.length := by
  unfold parseName at h
  by_cases hc : s.takeWhile isWordCh ≠ [] ∧ (s.dropWhile isWordCh).head? = some '>'
  · rw [if_pos hc] at h
    simp only [Option.some.injEq, Prod.mk.injEq] at h
    obtain ⟨_, hr⟩ := h
    subst hr
    obtain ⟨hne, hhead⟩ := hc
    have hsplit : (s.takeWhile isWordCh).length + (s.dropWhile isWordCh).length = s.length := by
      rw [← List.length_append, List.takeWhile_append_dropWhile]
    have htw : 1 ≤ (s.takeWhile isWordCh).length := by
      cases htk : s.takeWhile isWordCh with
      | nil => exact absurd htk hne
      | cons a l => simp
    have hdw : 1 ≤ (s.dropWhile isWordCh).length := by
      cases hdk : s.dropWhile isWordCh with
      | nil => rw [hdk] at hhead; cases hhead
      | cons a l => simp
    have htl : (s.dropWhile isWordCh).tail.length = (s.dropWhile isWordCh).length - 1 :=
      List.length_tail _
    omega
  · rw [if_neg hc] at h
    cases h

theorem tryKw_rest_lt (kw : Str) (k : PhKind) (r : Str) (q : PhKind × Str × Str)
    (h : tryKw kw k r = some q) : q.2.2.length < r.length := by
  unfold tryKw at h
  by_cases hpre : kw.isPrefixOf r = true
  · rw [if_pos hpre] at h
    cases hpn : parseName (r.drop kw.length) with
    | none => rw [hpn] at h; cases h
    | some p =>
      rw [hpn] at h
      simp only [Option.map_some', Option.some.injEq] at h
      have h1 := parseName_rest_lt _ _ _ (by rw [hpn] : parseName (r.drop kw.length) = some (p.1, p.2))
      have h2 : (r.drop kw.length).length ≤ r.length := by
        rw [List.length_drop]
        omega
      rw [← h]
      show p.2.length < r.length
      omega
  · rw [if_neg hpre] at h
    cases h

theorem parsePh_found_rest_lt (r : Str) (k : PhKind) (w rest : Str)
    (h : parsePh r = .found k w rest) : rest.length < r.length := by
  unfold parsePh at h
  cases h1 : parseName r with
  | some p =>
    rw [h1] at h
    cases h
    exact parseName_rest_lt r _ _ (by rw [h1] : parseName r = some (p.1, p.2))
  | none =>
    rw [h1] at h
    cases h2 : tryKw "string:".toList .strP r with
    | some q =>
      rw [h2] at h
      cases h
      exact tryKw_rest_lt _ _ _ _ h2
    | none =>
      rw [h2] at h
      cases h3 : tryKw "int:".toList .intP r with
      | some q =>
        rw [h3] at h
        cases h
        exact tryKw_rest_lt _ _ _ _ h3
      | none =>
        rw [h3] at h
        cases h4 : tryKw "float:".toList .floatP r with
        | some q =>
          rw [h4] at h
          cases h
          exact tryKw_rest_lt _ _ _ _ h4
        | none =>
          rw [h4] at h
          cases h5 : tryKw "uuid:".toList .uuidP r with
          | some q =>
            rw [h5] at h
            cases h
            exact tryKw_rest_lt _ _ _ _ h5
          | none =>
            rw [h5] at h
            by_cases h6 : ("regex".toList.isPrefixOf r) = true
            · rw [if_pos h6] at h
              cases h
            · rw [if_neg h6] at h
              cases h

/-- Fuel-driven template scanner mirroring the placeholder-substitution
passes of `_path_to_regex` as a single left-to-right scan (the passes
touch disjoint text, see `parsePh`).  The fuel argument only forces
structural recursion; every step consumes at least one character, so any
fuel above the string length gives the same result (`tokenizeF_irrel`). -/
def tokenizeF : Nat → Str → Option (List Tok)
  | 0, _ => none
  | _ + 1, [] => some []
  | fuel + 1, c :: r =>
    if c = '<' then
      match parsePh r with
      | .found k w rest => (tokenizeF fuel rest).map (fun ts => .ph k w :: ts)
      | .noPh => (tokenizeF fuel r).map (fun ts => .lit '<' :: ts)
      | .abort => none
    else (tokenizeF fuel r).map (fun ts => .lit c :: ts)

/-- Tokenization of a path template. -/
def tokenize (s : Str) : Option (List Tok) := tokenizeF (s.length + 1) s

theorem tokenizeF_irrel (f1 : Nat) :
    ∀ (s : Str) (f2 : Nat), s.length < f1 → s.length < f2 →
      tokenizeF f1 s = tokenizeF f2 s := by
  induction f1 with
  | zero =>
    intro s f2 h1 _
    omega
  | succ g IH =>
    intro s f2 h1 h2
    match f2, h2 with
    | g2 + 1, h2 =>
      cases s with
      | nil => rw [tokenizeF, tokenizeF]
      | cons c r =>
        simp only [List.length_cons] at h1 h2
        rw [tokenizeF, tokenizeF]
        by_cases hc : c = '<'
        · rw [if_pos hc, if_pos hc]
          cases hp : parsePh r with
          | found k w rest =>
            have hlt := parsePh_found_rest_lt r k w rest hp
            dsimp only
            rw [IH rest g2 (by omega) (by omega)]
          | noPh =>
            dsimp only
            rw [IH r g2 (by omega) (by omega)]
          | abort => rfl
        · rw [if_neg hc, if_neg hc, IH r g2 (by omega) (by omega)]

end ALP

namespace ALP

/-- Split `l = P ++ "):" ++ name` with `name` a non-empty word run and `P`
non-empty and newline-free, as the greedy `\((?P<pattern>.+)\)\:` /
`(?P<name>[a-zA-Z0-9_]+)` backtracking does.  The decomposition is unique
when it exists: a valid `name` contains no `)` or `:`, so the only
possible boundary is the maximal word run at the right end. -/
def suffixSplit (l : Str) : Option (Str × Str) :=
  let revName := l.reverse.takeWhile isWordCh
  let rest := l.reverse.dropWhile isWordCh
  match rest with
  | c1 :: c2 :: prest =>
    if c1 = ':' ∧ c2 = ')' ∧ revName ≠ [] ∧ prest ≠ [] ∧ ¬ prest.contains ('\n') then
      some (prest.reverse, revName.reverse)
    else none
  | _ => none

/-- Captured groups of `param_pattern` (patterns.py lines 8-10). -/
structure ParamMatch where
  typeG : Option Str
  patternG : Option Str
  nameG : Str
  deriving DecidableEq, Repr

/-- The branch of `param_pattern` with the outer optional group present:
`<type(pattern)?:name>`.  The `type` run is the maximal word run: a
shorter candidate is followed by a word character, which matches neither
`\(` nor `\:`, so the engine's backtracking below the maximal run never
succeeds. -/
def pmWithGroup (r : Str) : Option ParamMatch :=
  let t := r.takeWhile isWordCh
  let rest := r.dropWhile isWordCh
  if t = [] then none
  else
    match rest with
    | c :: r2 =>
      if c = '(' then
        if r2.getLast? = some '>' then
          (suffixSplit r2.dropLast).map (fun pn => ⟨some t, some pn.1, pn.2⟩)
        else none
      else if c = ':' then
        let w := r2.takeWhile isWordCh
        let rest3 := r2.dropWhile isWordCh
        if w ≠ [] ∧ rest3 = ['>'] then some ⟨some t, none, w⟩ else none
      else none
    | [] => none

/-- The branch of `param_pattern` with the outer optional group absent:
`<name>`. -/
def pmNameOnly (r : Str) : Option ParamMatch :=
  let w := r.takeWhile isWordCh
  let rest := r.dropWhile isWordCh
  if w ≠ [] ∧ rest = ['>'] then some ⟨none, none, w⟩ else none

/-- `param_pattern.match(s)`:
`^<((?P<type>[a-zA-Z0-9_]+)(\((?P<pattern>.+)\))?\:)?(?P<name>[a-zA-Z0-9_]+)>$`.
The outer optional group is greedy, so the typed branch is tried first. -/
def pyParamMatch (s : Str) : Option ParamMatch :=
  match s with
  | c :: r =>
    if c = '<' then
      match pmWithGroup r with
      | some m => some m
      | none => pmNameOnly r
    else none
  | [] => none

/-- `regex_pattern.search(s)`:
`^<(?P<type>regex)\((?P<pattern>.+)\):(?P<name>[a-zA-Z0-9_]+)>$`;
returns (pattern, name). -/
def regexPatternSearch (s : Str) : Option (Str × Str) :=
  if "<regex(".toList.isPrefixOf s ∧ s.getLast? = some '>' then
    suffixSplit (s.drop 7).dropLast
  else none

/-- Numeric value of a digit run. -/
def digitsToNat (s : Str) : Nat := s.foldl (fun acc c => acc * 10 + (c.toNat - '0'.toNat)) 0

/-- Python `int(s)` on the strings this code can produce: an optional
sign followed by a non-empty digit run (whitespace and underscore
tolerance of the full CPython grammar is not modelled). -/
def pyIntParse : Str → Option Int
  | '+' :: r => if r ≠ [] ∧ r.all isDigitCh then some (digitsToNat r) else none
  | '-' :: r => if r ≠ [] ∧ r.all isDigitCh then some (-(digitsToNat r : Int)) else none
  | r => if r ≠ [] ∧ r.all isDigitCh then some (digitsToNat r) else none

/-- Optional exponent suffix: empty, or `e`/`E`, optional sign, digits. -/
def expOk : Str → Bool
  | [] => true
  | e :: r =>
    (e = 'e' ∨ e = 'E') &&
      (match r with
       | c :: r2 => if isSignCh c then r2 ≠ [] && r2.all isDigitCh
                    else (c :: r2).all isDigitCh && (c :: r2) ≠ []
       | [] => false)

/-- Mantissa plus optional exponent: `digits [. digits]` or `. digits`,
at least one digit overall. -/
def mantExp (t : Str) : Bool :=
  let d1 := t.takeWhile isDigitCh
  let r1 := t.dropWhile isDigitCh
  match r1 with
  | [] => !d1.isEmpty
  | '.' :: r2 =>
    let d2 := r2.takeWhile isDigitCh
    let r3 := r2.dropWhile isDigitCh
    (!d1.isEmpty || !d2.isEmpty) && expOk r3
  | _ => !d1.isEmpty && expOk r1

/-- Whether Python `float(s)` succeeds (the `inf`/`nan` spellings and
whitespace tolerance are not modelled; no captured path segment can
contain them). -/
def pyFloatOkB : Str → Bool
  | [] => false
  | c :: r => if isSignCh c then mantExp r else mantExp (c :: r)

/-- A value produced by `_converters`: Python int, float or str.  A float
is kept as its validated source text — only the success or failure of
`float(...)` matters to any claim, not the IEEE value. -/
inductive ConvValue where
  | int (n : Int)
  | float (s : String)
  | str (s : String)
  deriving DecidableEq, Repr

/-- `routing._converters` (lines 38-48).  `int(...)`/`float(...)` raise
`ValueError` on unparsable text; the source returns `value` unchanged for
the explicit "string"/"uuid" arms and, by falling through, for every
other resolved type (including "regex" and the type-less bare form) and
for an unmatched placeholder. -/
def pyConverters (value : Str) (pathArg : Str) : Except PyErr ConvValue :=
  match pyParamMatch pathArg with
  | some m =>
    match m.typeG with
    | some t =>
      if t = "int".toList then
        match pyIntParse value with
        | some n => .ok (.int n)
        | none => .error .valueError
      else if t = "float".toList then
        if pyFloatOkB value then .ok (.float (String.mk value)) else .error .valueError
      else .ok (.str (String.mk value))
    | none => .ok (.str (String.mk value))
  | none => .ok (.str (String.mk value))

end ALP

namespace ALP

/-- Regex metacharacters.  A template literal that is one of these would
be interpreted by `re` rather than matched verbatim; atom translation is
only defined for metacharacter-free literals. -/
def isMetaCh (c : Char) : Bool :=
  c ∈ ['.', '^', '$', '*', '+', '?', '(', ')', '[', ']', '{', '}', '|', '\\']

/-- Atom of the compiled expression for one token; `none` when the token
is outside the translatable fragment (an inline-regex placeholder, whose
pattern is spliced verbatim, or a metacharacter literal). -/
def atomOfTok : Tok → Option Atom
  | .lit c => if isMetaCh c then none else some (.lit c)
  | .ph k _ => some (.grp (groupOfPh k))
  | .rgx _ _ => none

/-- The compiled match-expression of a template, as an atom sequence:
the AST of the anchored regex string `_path_to_regex` emits. -/
def pathToAtoms (s : Str) : Option (List Atom) :=
  (tokenize s).bind (fun ts => ts.mapM atomOfTok)

/-- One `re.sub` pass: at each `<`, if `tryPh` recognises a placeholder
(returning its name and the text after its `>`), emit `repl` and continue
after it; otherwise the character is kept.  Non-overlapping, left to
right, like `re.sub`.  Fuel only forces structural recursion; each step
consumes at least one character. -/
def subPassF (tryPh : Str → Option (Str × Str)) (repl : Str) : Nat → Str → Str
  | 0, s => s
  | _ + 1, [] => []
  | fuel + 1, c :: r =>
    if c = '<' then
      match tryPh r with
      | some p => repl ++ subPassF tryPh repl fuel p.2
      | none => '<' :: subPassF tryPh repl fuel r
    else c :: subPassF tryPh repl fuel r

/-- Recognise `kw` + `name>` after a `<` (for the `<string:name>`,
`<int:name>`, `<float:name>`, `<uuid:name>` passes). -/
def tryKwName (kw : Str) (r : Str) : Option (Str × Str) :=
  if kw.isPrefixOf r then parseName (r.drop kw.length) else none

/-- `re.findall(r"(<regex[^>]*>)", s)`: every non-overlapping occurrence
of `<regex`, then any run without `>`, then `>`. -/
def findRegexPhF : Nat → Str → List Str
  | 0, _ => []
  | _ + 1, [] => []
  | fuel + 1, c :: r =>
    if "<regex".toList.isPrefixOf (c :: r) then
      let afterKw := (c :: r).drop 6
      let after := afterKw.dropWhile (fun x => x ≠ '>')
      if after.isEmpty then findRegexPhF fuel r
      else
        ("<regex".toList ++ (afterKw.takeWhile (fun x => x ≠ '>') ++ ['>'])) ::
          findRegexPhF fuel after.tail
    else findRegexPhF fuel r

/-- Group text substituted for `<name>`/`<string:name>`. -/
def bareRepl : Str := "([a-zA-Z0-9_]+)".toList

/-- Group text substituted for `<int:name>`. -/
def intRepl : Str := "([0-9]+)".toList

/-- Group text substituted for `<float:name>` (unescaped dot). -/
def floatRepl : Str := "([+-]?[0-9]+.[0-9]+)".toList

/-- Group text substituted for `<uuid:name>`. -/
def uuidRepl : Str := "([0-9a-f]{8}-[0-9a-f]{4}-[0-9a-f]{4}-[0-9a-f]{4}-[0-9a-f]{12})".toList

/-- `routing._path_to_regex` (lines 9-25): anchor, the five substitution
passes in source order, then the inline-regex loop; `none` models the
`AttributeError` raised when a `<regex...>` candidate found by the loop
does not fully parse (`regex_pattern.search` returned `None`). -/
def pathToRegexStr (path : Str) : Option Str :=
  let s0 := '^' :: (path ++ ['$'])
  let s1 := subPassF parseName bareRepl (s0.length + 1) s0
  let s2 := subPassF (tryKwName "string:".toList) bareRepl (s1.length + 1) s1
  let s3 := subPassF (tryKwName "int:".toList) intRepl (s2.length + 1) s2
  let s4 := subPassF (tryKwName "float:".toList) floatRepl (s3.length + 1) s3
  let s5 := subPassF (tryKwName "uuid:".toList) uuidRepl (s4.length + 1) s4
  (findRegexPhF (s5.length + 1) s5).foldlM
    (fun acc param =>
      (regexPatternSearch param).map
        (fun pn => pyReplaceAll param ('(' :: (pn.1 ++ [')'])) acc))
    s5

/-- Pass 2 of `_path_to_openapi`: `re.sub(r"<([a-zA-Z0-9_]+\:)?", "{", s)`.
At a `<`: if the maximal word run after it is non-empty and followed by
`:`, the whole `<word:` is replaced by `{`; otherwise (the optional group
fails) just the `<` is replaced. -/
def openapiBraceF : Nat → Str → Str
  | 0, s => s
  | _ + 1, [] => []
  | fuel + 1, c :: r =>
    if c = '<' then
      match r.dropWhile isWordCh with
      | d :: r2 =>
        if d = ':' ∧ r.takeWhile isWordCh ≠ [] then '{' :: openapiBraceF fuel r2
        else '{' :: openapiBraceF fuel r
      | [] => '{' :: openapiBraceF fuel r
    else c :: openapiBraceF fuel r

/-- `routing._path_to_openapi` (lines 28-35): normalize each
`<regex(pattern):name>` to `<regex:name>` (a crash — `none` — when the
found `<regex...>` candidate does not fully parse), then `<` / `<word:`
to `{`, then every `>` to `}`. -/
def pathToOpenapi (path : Str) : Option Str :=
  match (findRegexPhF (path.length + 1) path).foldlM
      (fun acc param =>
        (regexPatternSearch param).map
          (fun pn => pyReplaceAll param ("<regex:".toList ++ pn.2 ++ ['>']) acc))
      path with
  | none => none
  | some s1 =>
    some ((openapiBraceF (s1.length + 1) s1).map (fun c => if c = '>' then '}' else c))

/-- `types.Response`.  The body is kept as its message text: JSON
serialization and the response-envelope building of `API.response`
(headers, CORS, compression, base64) are outside the specified core. -/
structure PyResponse where
  statusCode : Nat
  contentType : String
  body : String
  deriving DecidableEq, Repr

/-- `routing.RouteEntry` — the fields the matching engine reads.  The
metadata fields not consumed by routing (cors, compression, b64encode,
ttl, cache-control, description, tag) are omitted; `token` is kept since
the dispatcher branches on it.  Construction is in `mkRouteEntry`. -/
structure RouteEntry where
  path : String
  routeRegex : String
  openapiPath : String
  methods : List String
  token : Bool
  endpoint : List (String × ConvValue) → Except String PyResponse

/-- `RouteEntry.__init__`: compiles `route_regex` and `openapi_path`
(each can raise), and defaults the method list to `["GET"]` when the
given one is empty (`methods or ["GET"]`). -/
def mkRouteEntry (path : String) (methods : List String) (token : Bool)
    (endpoint : List (String × ConvValue) → Except String PyResponse) :
    Except PyErr RouteEntry :=
  match pathToRegexStr path.toList with
  | none => .error .attributeError
  | some rx =>
    match pathToOpenapi path.toList with
    | none => .error .attributeError
    | some oa =>
      .ok ⟨path, String.mk rx, String.mk oa,
        if methods.isEmpty then ["GET"] else methods, token, endpoint⟩

/-- `API._checkroute` (proxy.py lines 279-283): some registered route has
this very template string and contains the method. -/
def checkroute (routes : List RouteEntry) (path : String) (method : String) : Bool :=
  routes.any (fun r => r.methods.contains method && path == r.path)

/-- `API._add_route` (proxy.py lines 233-277), for the arguments the
claims exercise: the duplicate check runs first, over the requested
method list, and raises `ValueError` ("Duplicate route detected") before
the `RouteEntry` is built; on success the route is appended. -/
def addRoute (routes : List RouteEntry) (path : String) (methods : List String)
    (token : Bool) (endpoint : List (String × ConvValue) → Except String PyResponse) :
    Except PyErr (List RouteEntry) :=
  if methods.any (fun m => checkroute routes path m) then .error .valueError
  else (mkRouteEntry path methods token endpoint).map (fun r => routes ++ [r])

/-- `re.compile(route.route_regex).match(url)` viewed through the atom
translation of the route's template: defined (via `pathToAtoms`) exactly
for templates without inline-regex placeholders and without
regex-metacharacter literals; for others the model has no answer and
returns `false` (theorems about matching carry a translatability
hypothesis). -/
def routeMatchB (r : RouteEntry) (url : String) : Bool :=
  match pathToAtoms r.path.toList with
  | some atoms => (matchCaps atoms url.toList).isSome
  | none => false

/-- `API._url_matching` (proxy.py lines 285-291): scan the table in
registration order, return the first route whose method list contains
`method` and whose anchored expression matches `url`. -/
def urlMatching : List RouteEntry → String → String → Option RouteEntry
  | [], _, _ => none
  | r :: rs, url, m =>
    if r.methods.contains m && routeMatchB r url then some r else urlMatching rs url m

/-- `re.finditer(r"(<[^>]*>)", s)` match texts, in order. -/
def paramsFinditerF : Nat → Str → List Str
  | 0, _ => []
  | _ + 1, [] => []
  | fuel + 1, c :: r =>
    if c = '<' then
      let after := r.dropWhile (fun x => x ≠ '>')
      if after.isEmpty then paramsFinditerF fuel r
      else ('<' :: (r.takeWhile (fun x => x ≠ '>') ++ ['>'])) :: paramsFinditerF fuel after.tail
    else paramsFinditerF fuel r

/-- `params_expr.finditer` over a whole string. -/
def paramsFinditer (s : Str) : List Str := paramsFinditerF (s.length + 1) s

/-- `API._get_matching_args` (proxy.py lines 293-306): re-match the url
(`AttributeError` when it does not match), read the placeholder texts of
the template, extract their names (`AttributeError` when one does not
parse), convert each captured text against its placeholder in order —
skipping a capture that literally equals its placeholder text — and zip
the names with the converted values (`dict(zip(...))`; on a skip the zip
truncates, exactly as in the source).  `route_args[id]` raises
`IndexError` when there are more captures than placeholder texts. -/
def getMatchingArgs (route : RouteEntry) (url : String) :
    Except PyErr (List (String × ConvValue)) :=
  match pathToAtoms route.path.toList with
  | none => .error .notModeled
  | some atoms =>
    match matchCaps atoms url.toList with
    | none => .error .attributeError
    | some caps =>
      let routeArgs := paramsFinditer route.path.toList
      match routeArgs.mapM (fun arg => (pyParamMatch arg).map (fun m => m.nameG)) with
      | none => .error .attributeError
      | some names =>
        if routeArgs.length < caps.length then .error .indexError
        else
          (((caps.zip routeArgs).filter
              (fun p => decide (p.1 ≠ p.2))).mapM
              (fun p => pyConverters p.1 p.2)).map
            (fun args => (names.map String.mk).zip args)

end ALP

namespace ALP

theorem mkRouteEntry_error_attr (path : String) (methods : List String) (token : Bool)
    (endpoint : List (String × ConvValue) → Except String PyResponse) (e : PyErr)
    (h : mkRouteEntry path methods token endpoint = .error e) : e = .attributeError := by
  unfold mkRouteEntry at h
  cases h1 : pathToRegexStr path.toList with
  | none =>
    rw [h1] at h
    cases h
    rfl
  | some rx =>
    rw [h1] at h
    cases h2 : pathToOpenapi path.toList with
    | none =>
      rw [h2] at h
      cases h
      rfl
    | some oa =>
      rw [h2] at h
      cases h

/-- **C4** Registration fails with the duplicate-route `ValueError` iff
some already-registered route has the identical literal template string
and shares at least one requested HTTP method; with no such collision a
successfully compiled route is appended (in particular, identical
template with disjoint methods succeeds), and the comparison is on the
raw template string only — `/t/<a>` and `/t/<string:a>` compile to the
very same expression yet are different templates, hence not duplicates. -/
theorem C4_duplicate_route_iff (routes : List RouteEntry) (path : String)
    (methods : List String) (token : Bool)
    (endpoint : List (String × ConvValue) → Except String PyResponse) :
    (addRoute routes path methods token endpoint = .error .valueError ↔
      ∃ m ∈ methods, ∃ r ∈ routes, r.methods.contains m = true ∧ path = r.path) ∧
    (∀ rte, mkRouteEntry path methods token endpoint = .ok rte →
      (¬ ∃ m ∈ methods, ∃ r ∈ routes, r.methods.contains m = true ∧ path = r.path) →
      addRoute routes path methods token endpoint = .ok (routes ++ [rte])) ∧
    pathToRegexStr "/t/<a>".toList = pathToRegexStr "/t/<string:a>".toList ∧
    ("/t/<a>" : String) ≠ "/t/<string:a>" := by
  have hdup : (methods.any (fun m => checkroute routes path m) = true) ↔
      ∃ m ∈ methods, ∃ r ∈ routes, r.methods.contains m = true ∧ path = r.path := by
    unfold checkroute
    simp only [List.any_eq_true, Bool.and_eq_true, beq_iff_eq]
  refine ⟨?_, ?_, by decide, by decide⟩
  · unfold addRoute
    by_cases hc : methods.any (fun m => checkroute routes path m) = true
    · rw [if_pos hc]
      simp only [true_iff]
      exact hdup.mp hc
    · rw [if_neg hc]
      constructor
      · intro h
        cases hmk : mkRouteEntry path methods token endpoint with
        | error e =>
          rw [hmk] at h
          simp only [Except.map] at h
          injection h with h'
          have := mkRouteEntry_error_attr path methods token endpoint e hmk
          rw [this] at h'
          cases h'
        | ok rte =>
          rw [hmk] at h
          simp only [Except.map] at h
          cases h
      · intro h
        exact absurd (hdup.mpr h) hc
  · intro rte hmk hno
    unfold addRoute
    rw [if_neg (fun hc => hno (hdup.mp hc)), hmk]
    rfl

/-- **C3** Route lookup is first-match-wins in registration order: the
lookup returns `r` exactly when the table splits as `pre ++ r :: post`
with `r` accepting the method and matching the path and every
earlier-registered route in `pre` rejecting; it returns nothing exactly
when every route rejects — so of two registered routes both matching a
path with the same method, the one registered first is returned. -/
theorem C3_first_match_wins (routes : List RouteEntry) (url method : String) :
    (∀ r : RouteEntry, urlMatching routes url method = some r ↔
      ∃ pre post, routes = pre ++ r :: post ∧
        (r.methods.contains method && routeMatchB r url) = true ∧
        ∀ q ∈ pre, (q.methods.contains method && routeMatchB q url) = false) ∧
    (urlMatching routes url method = none ↔
      ∀ r ∈ routes, (r.methods.contains method && routeMatchB r url) = false) := by
  induction routes with
  | nil =>
    constructor
    · intro r
      rw [urlMatching]
      constructor
      · intro h
        cases h
      · rintro ⟨pre, post, heq, _⟩
        exact absurd heq (by simp)
    · rw [urlMatching]
      simp
  | cons a rs IH =>
    constructor
    · intro r
      rw [urlMatching]
      by_cases ha : (a.methods.contains method && routeMatchB a url) = true
      · rw [if_pos ha]
        constructor
        · intro h
          cases h
          exact ⟨[], rs, rfl, ha, by simp⟩
        · rintro ⟨pre, post, heq, hok, hpre⟩
          cases pre with
          | nil =>
            simp only [List.nil_append, List.cons.injEq] at heq
            rw [heq.1]
          | cons a2 pre2 =>
            simp only [List.cons_append, List.cons.injEq] at heq
            have := hpre a2 (by simp)
            rw [← heq.1] at this
            rw [ha] at this
            cases this
      · rw [if_neg ha]
        rw [(IH).1 r]
        constructor
        · rintro ⟨pre, post, heq, hok, hpre⟩
          refine ⟨a :: pre, post, by rw [heq]; rfl, hok, ?_⟩
          intro q hq
          rcases List.mem_cons.mp hq with rfl | hq'
          · exact Bool.eq_false_iff.mpr ha
          · exact hpre q hq'
        · rintro ⟨pre, post, heq, hok, hpre⟩
          cases pre with
          | nil =>
            simp only [List.nil_append, List.cons.injEq] at heq
            rw [← heq.1] at hok
            exact absurd hok ha
          | cons a2 pre2 =>
            simp only [List.cons_append, List.cons.injEq] at heq
            refine ⟨pre2, post, heq.2, hok, ?_⟩
            intro q hq
            exact hpre q (List.mem_cons_of_mem _ hq)
    · rw [urlMatching]
      by_cases ha : (a.methods.contains method && routeMatchB a url) = true
      · rw [if_pos ha]
        constructor
        · intro h
          cases h
        · intro h
          have := h a (by simp)
          rw [ha] at this
          cases this
      · rw [if_neg ha]
        rw [(IH).2]
        constructor
        · intro h r hr
          rcases List.mem_cons.mp hr with rfl | hr'
          · exact Bool.eq_false_iff.mpr ha
          · exact h r hr'
        · intro h r hr
          exact h r (List.mem_cons_of_mem _ hr)

end ALP

namespace ALP

/-- A trivial handler for witness routes. -/
def epOk : List (String × ConvValue) → Except String PyResponse :=
  fun _ => .ok ⟨200, "text/plain", "ok"⟩

/-- The compiled route for template `/t/<a>`, method GET. -/
def c4r0 : RouteEntry :=
  ⟨"/t/<a>", "^/t/([a-zA-Z0-9_]+)$", "/t/{a}", ["GET"], false, epOk⟩

/-- The compiled route for template `/t/<string:a>`, method GET. -/
def c4r1 : RouteEntry :=
  ⟨"/t/<string:a>", "^/t/([a-zA-Z0-9_]+)$", "/t/{a}", ["GET"], false, epOk⟩

theorem C4_duplicate_route_iff_witness :
    addRoute [c4r0] "/t/<a>" ["GET"] false epOk = .error .valueError ∧
    addRoute [c4r0] "/t/<string:a>" ["GET"] false epOk = .ok [c4r0, c4r1] :=
  ⟨(C4_duplicate_route_iff [c4r0] "/t/<a>" ["GET"] false epOk).1.mpr
      ⟨"GET", by decide, c4r0, by simp, by decide, by decide⟩,
   (C4_duplicate_route_iff [c4r0] "/t/<string:a>" ["GET"] false epOk).2.1 c4r1 rfl
      (by
        rintro ⟨m, _, r, hr, _, hpath⟩
        rw [List.mem_singleton] at hr
        subst hr
        exact absurd hpath (by decide))⟩

/-- Route `/t/<int:x>`, registered first. -/
def c3r1 : RouteEntry :=
  ⟨"/t/<int:x>", "^/t/([0-9]+)$", "/t/{x}", ["GET"], false, epOk⟩

/-- Route `/t/<name>`, registered second; also matches `/t/5`. -/
def c3r2 : RouteEntry :=
  ⟨"/t/<name>", "^/t/([a-zA-Z0-9_]+)$", "/t/{name}", ["GET"], false, epOk⟩

theorem C3_first_match_wins_witness :
    urlMatching [c3r1, c3r2] "/t/5" "GET" = some c3r1 ∧
    (c3r2.methods.contains "GET" && routeMatchB c3r2 "/t/5") = true :=
  ⟨((C3_first_match_wins [c3r1, c3r2] "/t/5" "GET").1 c3r1).mpr
      ⟨[], [c3r2], rfl, by decide, by simp⟩,
   by decide⟩

end ALP

namespace ALP

/-- **C7** The value converter parses "int"-typed captures with `int(...)`
(an integer on success, `ValueError` otherwise) and "float"-typed captures
with `float(...)`; captures whose resolved type is "string", "uuid",
"regex" or the bare/default form are returned unchanged as the original
string; and when the placeholder text does not resolve to a parameter
descriptor at all, the raw string is returned unchanged rather than
failing. -/
theorem C7_converters_by_type (value pathArg : Str) :
    (∀ m, pyParamMatch pathArg = some m →
      (m.typeG = some ("int".toList) →
        pyConverters value pathArg =
          (match pyIntParse value with
           | some n => .ok (.int n)
           | none => .error .valueError)) ∧
      (m.typeG = some ("float".toList) →
        pyConverters value pathArg =
          (if pyFloatOkB value then .ok (.float (String.mk value))
           else .error .valueError)) ∧
      ((m.typeG = some ("string".toList) ∨ m.typeG = some ("uuid".toList) ∨
          m.typeG = some ("regex".toList) ∨ m.typeG = none) →
        pyConverters value pathArg = .ok (.str (String.mk value)))) ∧
    (pyParamMatch pathArg = none →
      pyConverters value pathArg = .ok (.str (String.mk value))) := by
  constructor
  · intro m hm
    refine ⟨?_, ?_, ?_⟩
    · intro ht
      unfold pyConverters
      rw [hm]
      dsimp only
      rw [ht]
      dsimp only
      rw [if_pos rfl]
    · intro ht
      unfold pyConverters
      rw [hm]
      dsimp only
      rw [ht]
      dsimp only
      rw [if_neg (by decide), if_pos rfl]
    · intro ht
      unfold pyConverters
      rw [hm]
      dsimp only
      rcases ht with h | h | h | h <;> rw [h] <;> dsimp only
      · rw [if_neg (by decide), if_neg (by decide)]
      · rw [if_neg (by decide), if_neg (by decide)]
      · rw [if_neg (by decide), if_neg (by decide)]
  · intro hn
    unfold pyConverters
    rw [hn]

theorem C7_converters_by_type_witness :
    pyConverters ("42".toList) ("<int:v>".toList) =
      (match pyIntParse ("42".toList) with
       | some n => .ok (.int n)
       | none => .error .valueError) ∧
    pyConverters ("abc".toList) ("invalid_pattern".toList) =
      .ok (.str (String.mk ("abc".toList))) ∧
    pyConverters ("xy".toList) ("<uuid:u>".toList) =
      .ok (.str (String.mk ("xy".toList))) :=
  ⟨((C7_converters_by_type ("42".toList) ("<int:v>".toList)).1
      ⟨some ("int".toList), none, "v".toList⟩ (by decide)).1 rfl,
   (C7_converters_by_type ("abc".toList) ("invalid_pattern".toList)).2 (by decide),
   ((C7_converters_by_type ("xy".toList) ("<uuid:u>".toList)).1
      ⟨some ("uuid".toList), none, "u".toList⟩ (by decide)).2.2 (Or.inr (Or.inl rfl))⟩

end ALP

namespace ALP

theorem matchCaps_single_group (k : GroupKind) :
    ∀ (pre t : Str), matchCaps (pre.map Atom.lit ++ [Atom.grp k]) (pre ++ t) ≠ none ↔
      groupMatchB k t = true := by
  intro pre
  induction pre with
  | nil =>
    intro t
    constructor
    · intro h
      cases hm : matchCaps ([Atom.grp k]) t with
      | none => exact absurd hm h
      | some caps =>
        obtain ⟨u, s', cs', heq, hg, _, hs', _⟩ := matchCaps_sound _ _ _ hm
        obtain ⟨rfl, _⟩ := hs'
        rw [List.append_nil] at heq
        rw [heq]
        exact hg
    · intro hg
      have hd : Decomp [Atom.grp k] t [t] := ⟨t, [], [], by simp, hg, rfl, rfl, rfl⟩
      have := matchCaps_complete _ _ _ hd
      intro hn
      rw [List.map_nil, List.nil_append, List.nil_append] at hn
      rw [hn] at this
      cases this
  | cons c pre IH =>
    intro t
    rw [List.map_cons, List.cons_append, List.cons_append, matchCaps, if_pos rfl]
    exact IH t

/-- **C6** Typed placeholders are enforced by the matching stage itself:
(1) each group's executable matcher coincides with the regular-language
semantics of the group regex `_path_to_regex` emits; (2) every capture
list returned by a successful match comes from a decomposition in which
each captured text satisfies its group's matcher — so text outside a
placeholder's class is never handed to conversion; (3) for a template of
literals followed by one typed placeholder, the anchored expression
matches `literals ++ t` precisely when `t` satisfies the placeholder's
class (rejection happens at matching, never at conversion); and (4) the
float group's language is exactly: optional sign, digits, ONE character
that may be anything except a newline (the dot of
`([+-]?[0-9]+.[0-9]+)` is deliberately unescaped), then digits. -/
theorem C6_rejection_at_matching_stage :
    (∀ (k : GroupKind) (s : Str), groupMatchB k s = true ↔ reMatch (groupRE k) s = true) ∧
    (∀ (atoms : List Atom) (url : Str) (caps : List Str),
      matchCaps atoms url = some caps → Decomp atoms url caps) ∧
    (∀ (k : GroupKind) (pre t : Str),
      matchCaps (pre.map Atom.lit ++ [Atom.grp k]) (pre ++ t) ≠ none ↔
        groupMatchB k t = true) ∧
    (∀ s : Str, reMatch (groupRE .float) s = true ↔
      ∃ sgn d1 c d2, s = sgn ++ (d1 ++ c :: d2) ∧
        (sgn = [] ∨ ∃ cs, sgn = [cs] ∧ isSignCh cs = true) ∧
        d1 ≠ [] ∧ (∀ x ∈ d1, isDigitCh x = true) ∧
        c ≠ '\n' ∧ d2 ≠ [] ∧ ∀ x ∈ d2, isDigitCh x = true) := by
  refine ⟨groupMatchB_iff, matchCaps_sound, matchCaps_single_group, ?_⟩
  intro s
  rw [groupRE, reMatch_float_iff]
  constructor
  · rintro ⟨sgn, rest, rfl, hsgn, d1, c, d2, rfl, hne, hd1, hc, hd2ne, hd2⟩
    refine ⟨sgn, d1, c, d2, rfl, hsgn, hne, hd1, ?_, hd2ne, hd2⟩
    unfold isDotAny at hc
    simpa using hc
  · rintro ⟨sgn, d1, c, d2, rfl, hsgn, hne, hd1, hc, hd2ne, hd2⟩
    refine ⟨sgn, d1 ++ c :: d2, rfl, hsgn, d1, c, d2, rfl, hne, hd1, ?_, hd2ne, hd2⟩
    unfold isDotAny
    simpa using hc

/-- The compiled atoms of template `/a/<int:x>`. -/
def c6IntAtoms : List Atom := "/a/".toList.map Atom.lit ++ [Atom.grp .int]

theorem C6_rejection_at_matching_stage_witness :
    matchCaps c6IntAtoms ("/a/".toList ++ "1x".toList) = none ∧
    matchCaps c6IntAtoms ("/a/".toList ++ "12".toList) ≠ none ∧
    reMatch (groupRE .float) ("1x2".toList) = true :=
  ⟨not_ne_iff.mp
      (((C6_rejection_at_matching_stage.2.2.1 .int ("/a/".toList) ("1x".toList)).not).mpr
        (by decide)),
   (C6_rejection_at_matching_stage.2.2.1 .int ("/a/".toList) ("12".toList)).mpr (by decide),
   (C6_rejection_at_matching_stage.1 .float ("1x2".toList)).mp (by decide)⟩

end ALP

namespace ALP

/-- Lower-casing of header keys done at the top of `API.__call__`
(proxy.py lines 516-521). -/
def lowerHeaders (e : Event) : Event :=
  let hs := (e.headers.getD []).map (fun kv => (String.mk (kv.1.toList.map Char.toLower), kv.2))
  { e with headers := some hs }

/-- `API.__call__` (proxy.py lines 509-588) up to the point where the
response dict is built: header lower-casing, path normalization (`400`
when no path resolves), route lookup (`400` when nothing matches), the
access-token branch (the `TOKEN` environment variable is modelled as
unset, so a token-protected route always yields the `500` invalid-token
response), argument extraction and conversion — whose exceptions
propagate, since the `try`/`except` of the source only wraps the endpoint
invocation — query-string merge, body pass-through, endpoint invocation
(an endpoint exception becomes a `500` response).  Building the final
envelope (`API.response`: headers, CORS, compression, base64) is
serialization, outside the specified core; the endpoint's `Response` is
returned as is.  Base64 body decoding is likewise not modelled. -/
def apiCall (routes : List RouteEntry) (e0 : Event) : Except PyErr PyResponse :=
  let e := lowerHeaders e0
  match mkApigwPath e with
  | .error err => .error err
  | .ok info =>
    match info.path with
    | none => .ok ⟨400, "application/json", "Missing or invalid path"⟩
    | some p =>
      match e.httpMethod with
      | none => .error .keyError
      | some m =>
        match urlMatching routes p m with
        | none => .ok ⟨400, "application/json",
            "No view function for: " ++ m ++ " - " ++ p⟩
        | some route =>
          if route.token then
            .ok ⟨500, "application/json", "Invalid access token"⟩
          else
            match getMatchingArgs route p with
            | .error err => .error err
            | .ok kwargs =>
              let qs := (e.queryStringParameters.getD []).filter
                (fun kv => decide (kv.1 ≠ "access_token"))
              let kwargs2 := kwargs ++ qs.map (fun kv => (kv.1, ConvValue.str kv.2))
              let kwargs3 :=
                if (m = "POST" ∨ m = "PUT" ∨ m = "PATCH") ∧ e.body.getD ("") ≠ "" then
                  kwargs2 ++ [("body", ConvValue.str (e.body.getD ("")))]
                else kwargs2
              match route.endpoint kwargs3 with
              | .ok resp => .ok resp
              | .error msg => .ok ⟨500, "application/json", msg⟩

/-- **C8** A reachable value-conversion failure is NOT caught by the
dispatcher: `_get_matching_args` runs before the `try`/`except` that
wraps only the endpoint invocation, so when conversion raises, the
exception propagates out of `__call__` instead of being turned into an
error response.  Concretely: for any route table whose lookup selects a
token-less route on which argument conversion raises, the dispatcher
propagates that exception. -/
theorem C8_conversion_error_propagates (routes : List RouteEntry) (e : Event)
    (info : ApigwPathInfo) (p m : String) (route : RouteEntry) (err : PyErr)
    (hinfo : mkApigwPath (lowerHeaders e) = .ok info)
    (hp : info.path = some p)
    (hm : (lowerHeaders e).httpMethod = some m)
    (hroute : urlMatching routes p m = some route)
    (htoken : route.token = false)
    (hconv : getMatchingArgs route p = .error err) :
    apiCall routes e = .error err := by
  unfold apiCall
  dsimp only
  rw [hinfo]
  dsimp only
  rw [hp]
  dsimp only
  rw [hm]
  dsimp only
  rw [hroute]
  dsimp only
  rw [htoken]
  rw [if_neg (by simp)]
  rw [hconv]

/-- The float route `/<float:x>` with method GET. -/
def c8Route : RouteEntry :=
  ⟨"/<float:x>", "^/([+-]?[0-9]+.[0-9]+)$", "/{x}", ["GET"], false, epOk⟩

/-- GET `/1x2`: the unescaped dot of the float group makes the path
match, capturing `1x2`; `float("1x2")` then raises `ValueError`. -/
def c8Event : Event :=
  { path := some ("/1x2"), headers := some [], httpMethod := some ("GET") }

theorem C8_conversion_error_propagates_witness :
    apiCall [c8Route] c8Event = .error .valueError :=
  C8_conversion_error_propagates [c8Route] c8Event
    ⟨none, "", some ("/1x2"), "", ""⟩ "/1x2" "GET" c8Route .valueError
    (by simp +decide [mkApigwPath, getApigwStage, getRequestPath, strIn, proxySplit,
      proxyHere, proxySub, rstripSlash, pyReplaceAll, lowerHeaders, c8Event])
    rfl rfl rfl rfl (by decide)

end ALP

namespace ALP

/-- Keyword text of each placeholder kind. -/
def kwStr : PhKind → Str
  | .bare => []
  | .strP => "string:".toList
  | .intP => "int:".toList
  | .floatP => "float:".toList
  | .uuidP => "uuid:".toList

/-- Source text of one token. -/
def renderTok : Tok → Str
  | .lit c => [c]
  | .ph k n => '<' :: (kwStr k ++ (n ++ ['>']))
  | .rgx p n => "<regex(".toList ++ (p ++ (')' :: ':' :: (n ++ ['>'])))

/-- Source text of a token list — the template string they came from. -/
def render (toks : List Tok) : Str := (toks.map renderTok).flatten

/-- Placeholder source texts, in order (`params_expr.finditer` output on a
well-formed template). -/
def phSources (toks : List Tok) : List Str :=
  toks.filterMap (fun t =>
    match t with
    | .ph k n => some (renderTok (.ph k n))
    | _ => none)

/-- Placeholder names, in order. -/
def phNames (toks : List Tok) : List Str :=
  toks.filterMap (fun t =>
    match t with
    | .ph _ n => some n
    | _ => none)

theorem parseName_some_spec (s w rest : Str) (h : parseName s = some (w, rest)) :
    s = w ++ '>' :: rest ∧ w ≠ [] ∧ ∀ c ∈ w, isWordCh c = true := by
  unfold parseName at h
  by_cases hc : s.takeWhile isWordCh ≠ [] ∧ (s.dropWhile isWordCh).head? = some '>'
  · rw [if_pos hc] at h
    simp only [Option.some.injEq, Prod.mk.injEq] at h
    obtain ⟨hw, hr⟩ := h
    obtain ⟨hne, hhead⟩ := hc
    have hdw : s.dropWhile isWordCh = '>' :: (s.dropWhile isWordCh).tail := by
      cases hdk : s.dropWhile isWordCh with
      | nil => rw [hdk] at hhead; cases hhead
      | cons a l =>
        rw [hdk] at hhead
        simp only [List.head?_cons, Option.some.injEq] at hhead
        rw [hhead]
        rfl
    refine ⟨?_, by rw [← hw]; exact hne, ?_⟩
    · conv_lhs => rw [← List.takeWhile_append_dropWhile isWordCh s]
      rw [hw, hdw, hr]
    · intro c hcw
      rw [← hw] at hcw
      exact List.mem_takeWhile_imp hcw
  · rw [if_neg hc] at h
    cases h

theorem takeWhile_of_all {p : Char → Bool} (l : Str) (h : ∀ c ∈ l, p c = true) :
    l.takeWhile p = l := by
  induction l with
  | nil => rfl
  | cons a t IH =>
    rw [List.takeWhile_cons_of_pos (h a (by simp))]
    rw [IH (fun c hc => h c (List.mem_cons_of_mem _ hc))]

theorem dropWhile_of_all {p : Char → Bool} (l : Str) (h : ∀ c ∈ l, p c = true) :
    l.dropWhile p = [] := by
  induction l with
  | nil => rfl
  | cons a t IH =>
    rw [List.dropWhile_cons_of_pos (h a (by simp))]
    exact IH (fun c hc => h c (List.mem_cons_of_mem _ hc))

theorem takeWhile_word_append (w rest : Str) (hw : ∀ c ∈ w, isWordCh c = true) :
    (w ++ '>' :: rest).takeWhile isWordCh = w := by
  rw [List.takeWhile_append]
  rw [if_pos (by rw [takeWhile_of_all w hw])]
  rw [List.takeWhile_cons_of_neg (by decide), List.append_nil]

theorem dropWhile_word_append (w rest : Str) (hw : ∀ c ∈ w, isWordCh c = true) :
    (w ++ '>' :: rest).dropWhile isWordCh = '>' :: rest := by
  rw [List.dropWhile_append]
  rw [if_pos (by rw [dropWhile_of_all w hw]; rfl)]
  rw [List.dropWhile_cons_of_neg (by decide)]

theorem parseName_of_shape (w rest : Str) (hne : w ≠ [])
    (hw : ∀ c ∈ w, isWordCh c = true) :
    parseName (w ++ '>' :: rest) = some (w, rest) := by
  unfold parseName
  rw [takeWhile_word_append w rest hw, dropWhile_word_append w rest hw]
  rw [if_pos ⟨hne, rfl⟩]
  rfl

end ALP

namespace ALP

theorem tryKw_some_spec (kw : Str) (k : PhKind) (r : Str) (q : PhKind × Str × Str)
    (h : tryKw kw k r = some q) :
    r = kw ++ (q.2.1 ++ '>' :: q.2.2) ∧ q.1 = k ∧ q.2.1 ≠ [] ∧
      ∀ c ∈ q.2.1, isWordCh c = true := by
  unfold tryKw at h
  by_cases hpre : kw.isPrefixOf r = true
  · rw [if_pos hpre] at h
    cases hpn : parseName (r.drop kw.length) with
    | none => rw [hpn] at h; cases h
    | some p =>
      rw [hpn] at h
      simp only [Option.map_some', Option.some.injEq] at h
      obtain ⟨t, ht⟩ := List.isPrefixOf_iff_prefix.mp hpre
      have hdrop : r.drop kw.length = t := by
        rw [← ht, List.drop_left]
      rw [hdrop] at hpn
      obtain ⟨hshape, hne, hword⟩ := parseName_some_spec t p.1 p.2 (by rw [hpn])
      subst h
      refine ⟨?_, rfl, hne, hword⟩
      rw [← ht, hshape]
  · rw [if_neg hpre] at h
    cases h

theorem parsePh_found_spec (r : Str) (k : PhKind) (w rest : Str)
    (h : parsePh r = .found k w rest) :
    r = kwStr k ++ (w ++ '>' :: rest) ∧ w ≠ [] ∧ ∀ c ∈ w, isWordCh c = true := by
  unfold parsePh at h
  cases h1 : parseName r with
  | some p =>
    rw [h1] at h
    cases h
    obtain ⟨hs, hne, hword⟩ := parseName_some_spec r _ _ (by rw [h1])
    exact ⟨by rw [kwStr]; rw [List.nil_append]; exact hs, hne, hword⟩
  | none =>
    rw [h1] at h
    cases h2 : tryKw "string:".toList .strP r with
    | some q =>
      rw [h2] at h
      cases h
      obtain ⟨hs, heqk, hne, hword⟩ := tryKw_some_spec _ _ _ _ h2
      refine ⟨?_, hne, hword⟩
      rw [heqk]
      exact hs
    | none =>
      rw [h2] at h
      cases h3 : tryKw "int:".toList .intP r with
      | some q =>
        rw [h3] at h
        cases h
        obtain ⟨hs, heqk, hne, hword⟩ := tryKw_some_spec _ _ _ _ h3
        refine ⟨?_, hne, hword⟩
        rw [heqk]
        exact hs
      | none =>
        rw [h3] at h
        cases h4 : tryKw "float:".toList .floatP r with
        | some q =>
          rw [h4] at h
          cases h
          obtain ⟨hs, heqk, hne, hword⟩ := tryKw_some_spec _ _ _ _ h4
          refine ⟨?_, hne, hword⟩
          rw [heqk]
          exact hs
        | none =>
          rw [h4] at h
          cases h5 : tryKw "uuid:".toList .uuidP r with
          | some q =>
            rw [h5] at h
            cases h
            obtain ⟨hs, heqk, hne, hword⟩ := tryKw_some_spec _ _ _ _ h5
            refine ⟨?_, hne, hword⟩
            rw [heqk]
            exact hs
          | none =>
            rw [h5] at h
            by_cases h6 : ("regex".toList.isPrefixOf r) = true
            · rw [if_pos h6] at h
              cases h
            · rw [if_neg h6] at h
              cases h

/-- Well-formedness facts guaranteed for every token the scanner
produces: placeholder names are non-empty word runs, and inline-regex
placeholders never appear (the scanner has no answer for them). -/
def TokNameWf : Tok → Prop
  | .lit _ => True
  | .ph _ n => n ≠ [] ∧ ∀ c ∈ n, isWordCh c = true
  | .rgx _ _ => False

theorem tokenizeF_some_spec (fuel : Nat) :
    ∀ (s : Str) (toks : List Tok), tokenizeF fuel s = some toks →
      s = render toks ∧ ∀ t ∈ toks, TokNameWf t := by
  induction fuel with
  | zero =>
    intro s toks h
    cases h
  | succ g IH =>
    intro s toks h
    cases s with
    | nil =>
      rw [tokenizeF] at h
      cases h
      exact ⟨rfl, by simp⟩
    | cons c r =>
      rw [tokenizeF] at h
      by_cases hc : c = '<'
      · rw [if_pos hc] at h
        cases hp : parsePh r with
        | found k w rest =>
          rw [hp] at h
          dsimp only at h
          cases hts : tokenizeF g rest with
          | none => rw [hts] at h; cases h
          | some ts =>
            rw [hts] at h
            simp only [Option.map_some', Option.some.injEq] at h
            subst h
            obtain ⟨hrest, hwf⟩ := IH rest ts hts
            obtain ⟨hshape, hne, hword⟩ := parsePh_found_spec r k w rest hp
            constructor
            · rw [hc, hshape, hrest]
              simp [render, renderTok, List.append_assoc]
            · intro t ht
              rcases List.mem_cons.mp ht with rfl | ht'
              · exact ⟨hne, hword⟩
              · exact hwf t ht'
        | noPh =>
          rw [hp] at h
          dsimp only at h
          cases hts : tokenizeF g r with
          | none => rw [hts] at h; cases h
          | some ts =>
            rw [hts] at h
            simp only [Option.map_some', Option.some.injEq] at h
            subst h
            obtain ⟨hrest, hwf⟩ := IH r ts hts
            constructor
            · rw [hc, hrest]
              simp [render, renderTok]
            · intro t ht
              rcases List.mem_cons.mp ht with rfl | ht'
              · trivial
              · exact hwf t ht'
        | abort =>
          rw [hp] at h
          cases h
      · rw [if_neg hc] at h
        cases hts : tokenizeF g r with
        | none => rw [hts] at h; cases h
        | some ts =>
          rw [hts] at h
          simp only [Option.map_some', Option.some.injEq] at h
          subst h
          obtain ⟨hrest, hwf⟩ := IH r ts hts
          constructor
          · rw [hrest]
            simp [render, renderTok]
          · intro t ht
            rcases List.mem_cons.mp ht with rfl | ht'
            · trivial
            · exact hwf t ht'

/-- Inversion of the template scanner: the template is the rendering of
its tokens, placeholder names are non-empty word runs, and no
inline-regex token occurs. -/
theorem tokenize_some_spec (s : Str) (toks : List Tok) (h : tokenize s = some toks) :
    s = render toks ∧ ∀ t ∈ toks, TokNameWf t :=
  tokenizeF_some_spec (s.length + 1) s toks h

end ALP

namespace ALP

theorem dropWhile_tail_lt (r : Str) (h : (r.dropWhile (fun x => x ≠ '>')).isEmpty = false) :
    (r.dropWhile (fun x => x ≠ '>')).tail.length < r.length := by
  have hle : (r.dropWhile (fun x => x ≠ '>')).length ≤ r.length :=
    (List.dropWhile_sublist (fun x => x ≠ '>')).length_le
  cases hd : r.dropWhile (fun x => x ≠ '>') with
  | nil => rw [hd] at h; cases h
  | cons a rest =>
    rw [hd] at hle
    simp only [List.length_cons] at hle
    simp only [List.tail_cons]
    omega

theorem paramsFinditerF_irrel (f1 : Nat) :
    ∀ (s : Str) (f2 : Nat), s.length < f1 → s.length < f2 →
      paramsFinditerF f1 s = paramsFinditerF f2 s := by
  induction f1 with
  | zero =>
    intro s f2 h1 _
    omega
  | succ g IH =>
    intro s f2 h1 h2
    match f2, h2 with
    | g2 + 1, h2 =>
      cases s with
      | nil => rw [paramsFinditerF, paramsFinditerF]
      | cons c r =>
        simp only [List.length_cons] at h1 h2
        rw [paramsFinditerF, paramsFinditerF]
        by_cases hc : c = '<'
        · rw [if_pos hc, if_pos hc]
          dsimp only
          by_cases he : (r.dropWhile (fun x => x ≠ '>')).isEmpty = true
          · rw [if_pos he, if_pos he, IH r g2 (by omega) (by omega)]
          · rw [if_neg he, if_neg he]
            have := dropWhile_tail_lt r (Bool.not_eq_true _ ▸ Bool.eq_false_iff.mpr he)
            rw [IH _ g2 (by omega) (by omega)]
        · rw [if_neg hc, if_neg hc, IH r g2 (by omega) (by omega)]

theorem paramsFinditer_cons_ne (c : Char) (s : Str) (hc : c ≠ '<') :
    paramsFinditer (c :: s) = paramsFinditer s := by
  unfold paramsFinditer
  rw [paramsFinditerF, if_neg hc]
  exact paramsFinditerF_irrel _ s _ (by simp) (by simp)

theorem paramsFinditer_pass (xs : Str) (rest : Str) (hxs : ∀ c ∈ xs, c ≠ '<') :
    paramsFinditer (xs ++ rest) = paramsFinditer rest := by
  induction xs with
  | nil => rfl
  | cons a t IH =>
    rw [List.cons_append, paramsFinditer_cons_ne a _ (hxs a (by simp))]
    exact IH (fun c hc => hxs c (List.mem_cons_of_mem _ hc))

theorem paramsFinditer_ph (body : Str) (rest : Str) (hb : ∀ c ∈ body, c ≠ '>') :
    paramsFinditer ('<' :: (body ++ '>' :: rest)) =
      ('<' :: (body ++ ['>'])) :: paramsFinditer rest := by
  unfold paramsFinditer
  rw [paramsFinditerF, if_pos rfl]
  dsimp only
  have htk : (body ++ '>' :: rest).takeWhile (fun x => x ≠ '>') = body := by
    rw [List.takeWhile_append]
    rw [if_pos (by rw [takeWhile_of_all body (fun c hc => by simp [hb c hc])])]
    rw [List.takeWhile_cons_of_neg (by simp), List.append_nil]
  have hdw : (body ++ '>' :: rest).dropWhile (fun x => x ≠ '>') = '>' :: rest := by
    rw [List.dropWhile_append]
    rw [if_pos (by rw [dropWhile_of_all body (fun c hc => by simp [hb c hc])]; rfl)]
    rw [List.dropWhile_cons_of_neg (by simp)]
  rw [htk, hdw]
  rw [if_neg (by simp)]
  simp only [List.tail_cons, List.length_cons]
  congr 1
  exact paramsFinditerF_irrel _ rest _ (by simp [List.length_append]; omega) (by simp)

end ALP

namespace ALP

theorem isWordCh_ne_gt (c : Char) (h : isWordCh c = true) : c ≠ '>' := by
  intro hc
  subst hc
  exact absurd h (by decide)

theorem isWordCh_ne_lt (c : Char) (h : isWordCh c = true) : c ≠ '<' := by
  intro hc
  subst hc
  exact absurd h (by decide)

theorem kwStr_ne_gt (k : PhKind) : ∀ c ∈ kwStr k, c ≠ '>' := by
  cases k <;> decide

/-- On a template whose literal characters avoid `<` and `>` and whose
placeholder names are word runs, `params_expr.finditer` returns exactly
the placeholder source texts, in order. -/
theorem paramsFinditer_render (toks : List Tok)
    (hwf : ∀ t ∈ toks, TokNameWf t)
    (hlit : ∀ c, Tok.lit c ∈ toks → c ≠ '<' ∧ c ≠ '>') :
    paramsFinditer (render toks) = phSources toks := by
  induction toks with
  | nil => rfl
  | cons t ts IH =>
    have IH' := IH (fun u hu => hwf u (List.mem_cons_of_mem _ hu))
      (fun c hc => hlit c (List.mem_cons_of_mem _ hc))
    cases t with
    | lit c =>
      have hc := hlit c (List.mem_cons_self _ _)
      have hr : render (Tok.lit c :: ts) = c :: render ts := by
        simp [render, renderTok]
      rw [hr, paramsFinditer_cons_ne c _ hc.1]
      rw [show phSources (Tok.lit c :: ts) = phSources ts from by simp [phSources]]
      exact IH'
    | ph k n =>
      obtain ⟨hne, hword⟩ := hwf (Tok.ph k n) (List.mem_cons_self _ _)
      have hr : render (Tok.ph k n :: ts) =
          '<' :: ((kwStr k ++ n) ++ '>' :: render ts) := by
        simp [render, renderTok, List.append_assoc]
      rw [hr]
      rw [paramsFinditer_ph (kwStr k ++ n) (render ts) ?hb]
      case hb =>
        intro c hc
        rcases List.mem_append.mp hc with h | h
        · exact kwStr_ne_gt k c h
        · exact isWordCh_ne_gt c (hword c h)
      rw [show phSources (Tok.ph k n :: ts) =
          renderTok (Tok.ph k n) :: phSources ts from by simp [phSources]]
      rw [IH']
      congr 1
      simp [renderTok, List.append_assoc]
    | rgx p n =>
      exact absurd (hwf (Tok.rgx p n) (List.mem_cons_self _ _)) (by simp [TokNameWf])

theorem takeWhile_word_sep (w : Str) (sep : Char) (rest : Str)
    (hw : ∀ c ∈ w, isWordCh c = true) (hsep : isWordCh sep = false) :
    (w ++ sep :: rest).takeWhile isWordCh = w := by
  rw [List.takeWhile_append]
  rw [if_pos (by rw [takeWhile_of_all w hw])]
  rw [List.takeWhile_cons_of_neg (by rw [hsep]; exact Bool.false_ne_true), List.append_nil]

theorem dropWhile_word_sep (w : Str) (sep : Char) (rest : Str)
    (hw : ∀ c ∈ w, isWordCh c = true) (hsep : isWordCh sep = false) :
    (w ++ sep :: rest).dropWhile isWordCh = sep :: rest := by
  rw [List.dropWhile_append]
  rw [if_pos (by rw [dropWhile_of_all w hw]; rfl)]
  rw [List.dropWhile_cons_of_neg (by rw [hsep]; exact Bool.false_ne_true)]

theorem pmWithGroup_kwname (kw : Str) (n : Str) (hkw : kw ≠ [])
    (hkwW : ∀ c ∈ kw, isWordCh c = true) (hne : n ≠ [])
    (hword : ∀ c ∈ n, isWordCh c = true) :
    pmWithGroup (kw ++ ':' :: (n ++ ['>'])) = some ⟨some kw, none, n⟩ := by
  unfold pmWithGroup
  rw [takeWhile_word_sep kw ':' (n ++ ['>']) hkwW (by decide),
    dropWhile_word_sep kw ':' (n ++ ['>']) hkwW (by decide)]
  rw [if_neg hkw]
  dsimp only
  rw [if_neg (by decide), if_pos rfl]
  rw [show (n ++ ['>'] : Str) = n ++ '>' :: [] from rfl]
  rw [takeWhile_word_append n [] hword, dropWhile_word_append n [] hword]
  rw [if_pos ⟨hne, rfl⟩]

theorem pmWithGroup_bare_none (n : Str) (hne : n ≠ [])
    (hword : ∀ c ∈ n, isWordCh c = true) :
    pmWithGroup (n ++ ['>']) = none := by
  unfold pmWithGroup
  rw [show (n ++ ['>'] : Str) = n ++ '>' :: [] from rfl]
  rw [takeWhile_word_append n [] hword, dropWhile_word_append n [] hword]
  rw [if_neg hne]
  dsimp only
  rw [if_neg (by decide), if_neg (by decide)]

theorem pmNameOnly_shape (n : Str) (hne : n ≠ [])
    (hword : ∀ c ∈ n, isWordCh c = true) :
    pmNameOnly (n ++ ['>']) = some ⟨none, none, n⟩ := by
  unfold pmNameOnly
  rw [show (n ++ ['>'] : Str) = n ++ '>' :: [] from rfl]
  rw [takeWhile_word_append n [] hword, dropWhile_word_append n [] hword]
  rw [if_pos ⟨hne, rfl⟩]

/-- The keyword of each typed placeholder kind, without the colon. -/
def kwWord : PhKind → Str
  | .bare => []
  | .strP => "string".toList
  | .intP => "int".toList
  | .floatP => "float".toList
  | .uuidP => "uuid".toList

/-- `param_pattern.match` on a placeholder source text succeeds and
resolves the declared name. -/
theorem pyParamMatch_ph (k : PhKind) (n : Str) (hne : n ≠ [])
    (hword : ∀ c ∈ n, isWordCh c = true) :
    ∃ m, pyParamMatch (renderTok (Tok.ph k n)) = some m ∧ m.nameG = n := by
  cases k with
  | bare =>
    refine ⟨⟨none, none, n⟩, ?_, rfl⟩
    rw [show renderTok (Tok.ph .bare n) = '<' :: (n ++ ['>']) from by
      simp [renderTok, kwStr]]
    unfold pyParamMatch
    dsimp only
    rw [if_pos rfl, pmWithGroup_bare_none n hne hword]
    exact pmNameOnly_shape n hne hword
  | strP =>
    refine ⟨⟨some ("string".toList), none, n⟩, ?_, rfl⟩
    rw [show renderTok (Tok.ph .strP n) =
        '<' :: ("string".toList ++ ':' :: (n ++ ['>'])) from by
      simp [renderTok, kwStr]]
    unfold pyParamMatch
    dsimp only
    rw [if_pos rfl, pmWithGroup_kwname _ n (by decide) (by decide) hne hword]
  | intP =>
    refine ⟨⟨some ("int".toList), none, n⟩, ?_, rfl⟩
    rw [show renderTok (Tok.ph .intP n) =
        '<' :: ("int".toList ++ ':' :: (n ++ ['>'])) from by
      simp [renderTok, kwStr]]
    unfold pyParamMatch
    dsimp only
    rw [if_pos rfl, pmWithGroup_kwname _ n (by decide) (by decide) hne hword]
  | floatP =>
    refine ⟨⟨some ("float".toList), none, n⟩, ?_, rfl⟩
    rw [show renderTok (Tok.ph .floatP n) =
        '<' :: ("float".toList ++ ':' :: (n ++ ['>'])) from by
      simp [renderTok, kwStr]]
    unfold pyParamMatch
    dsimp only
    rw [if_pos rfl, pmWithGroup_kwname _ n (by decide) (by decide) hne hword]
  | uuidP =>
    refine ⟨⟨some ("uuid".toList), none, n⟩, ?_, rfl⟩
    rw [show renderTok (Tok.ph .uuidP n) =
        '<' :: ("uuid".toList ++ ':' :: (n ++ ['>'])) from by
      simp [renderTok, kwStr]]
    unfold pyParamMatch
    dsimp only
    rw [if_pos rfl, pmWithGroup_kwname _ n (by decide) (by decide) hne hword]

end ALP

namespace ALP

/-- Number of capture groups in an atom sequence. -/
def grpCountA (atoms : List Atom) : Nat :=
  (atoms.filter (fun a => match a with | .grp _ => true | .lit _ => false)).length

theorem decomp_caps_length (atoms : List Atom) :
    ∀ (s : Str) (cs : List Str), Decomp atoms s cs → cs.length = grpCountA atoms := by
  induction atoms with
  | nil =>
    intro s cs h
    obtain ⟨_, rfl⟩ := h
    rfl
  | cons a as IH =>
    intro s cs h
    cases a with
    | lit c =>
      obtain ⟨s', _, hd⟩ := h
      rw [IH s' cs hd]
      rfl
    | grp k =>
      obtain ⟨t, s', cs', _, _, rfl, hd⟩ := h
      simp only [List.length_cons, IH s' cs' hd]
      rfl

theorem mapM_atoms_grp_count (toks : List Tok) :
    ∀ atoms : List Atom, toks.mapM atomOfTok = some atoms →
      grpCountA atoms = (phSources toks).length := by
  induction toks with
  | nil =>
    intro atoms h
    cases h
    rfl
  | cons t ts IH =>
    intro atoms h
    rw [List.mapM_cons] at h
    cases hft : atomOfTok t with
    | none => rw [hft] at h; cases h
    | some a =>
      rw [hft] at h
      cases hrest : ts.mapM atomOfTok with
      | none => rw [hrest] at h; cases h
      | some as =>
        rw [hrest] at h
        simp only [Option.bind_eq_bind, Option.some_bind, Option.map_some',
          pure, Option.some.injEq] at h
        subst h
        cases t with
        | lit c =>
          have : a = .lit c := by
            unfold atomOfTok at hft
            dsimp only at hft
            by_cases hm : isMetaCh c = true
            · rw [if_pos hm] at hft; cases hft
            · rw [if_neg hm] at hft
              cases hft
              rfl
          subst this
          rw [show phSources (Tok.lit c :: ts) = phSources ts from by simp [phSources]]
          rw [← IH as hrest]
          rfl
        | ph k n =>
          have : a = .grp (groupOfPh k) := by
            unfold atomOfTok at hft
            dsimp only at hft
            cases hft
            rfl
          subst this
          rw [show phSources (Tok.ph k n :: ts) =
              renderTok (Tok.ph k n) :: phSources ts from by simp [phSources]]
          simp only [List.length_cons, ← IH as hrest]
          rfl
        | rgx p n =>
          unfold atomOfTok at hft
          dsimp only at hft
          cases hft

theorem groupMatchB_head_ne_lt (k : GroupKind) (t : Str) (h : groupMatchB k t = true) :
    ∃ c r, t = c :: r ∧ c ≠ '<' := by
  cases k with
  | word =>
    rw [groupMatchB] at h
    simp only [Bool.and_eq_true, Bool.not_eq_true', List.isEmpty_eq_false,
      List.all_eq_true] at h
    obtain ⟨hne, hall⟩ := h
    cases t with
    | nil => exact absurd rfl hne
    | cons c r => exact ⟨c, r, rfl, isWordCh_ne_lt c (hall c (by simp))⟩
  | int =>
    rw [groupMatchB] at h
    simp only [Bool.and_eq_true, Bool.not_eq_true', List.isEmpty_eq_false,
      List.all_eq_true] at h
    obtain ⟨hne, hall⟩ := h
    cases t with
    | nil => exact absurd rfl hne
    | cons c r =>
      refine ⟨c, r, rfl, ?_⟩
      have := hall c (by simp)
      intro hc
      subst hc
      exact absurd this (by decide)
  | float =>
    cases t with
    | nil => rw [groupMatchB] at h; cases h
    | cons c r =>
      rw [groupMatchB] at h
      by_cases hs : isSignCh c = true
      · refine ⟨c, r, rfl, ?_⟩
        intro hc
        subst hc
        exact absurd hs (by decide)
      · rw [if_neg hs] at h
        obtain ⟨d1, c', d2, heq, hne, hd1, _⟩ := (floatTailB_iff _).mp h
        cases d1 with
        | nil => exact absurd rfl hne
        | cons a l =>
          rw [List.cons_append] at heq
          rw [List.cons.injEq] at heq
          refine ⟨c, r, rfl, ?_⟩
          rw [heq.1]
          have := hd1 a (by simp)
          intro hc
          rw [hc] at this
          exact absurd this (by decide)
  | uuid =>
    rw [groupMatchB, uuidMatchB] at h
    cases hchain : ((((((((hexChunk 8 t).bind dashChunk).bind (hexChunk 4)).bind
        dashChunk).bind (hexChunk 4)).bind dashChunk).bind (hexChunk 4)).bind
        dashChunk).bind (hexChunk 12) with
    | none => rw [hchain] at h; cases h
    | some r9 =>
      simp only [Option.bind_eq_some] at hchain
      obtain ⟨r8, ⟨r7, ⟨r6, ⟨r5, ⟨r4, ⟨r3, ⟨r2, ⟨r1, h1, _⟩, _⟩, _⟩, _⟩, _⟩, _⟩, _⟩, _⟩ := hchain
      obtain ⟨hlen, hhex, _⟩ := (hexChunk_eq_some_iff 8 t r1).mp h1
      cases t with
      | nil => simp at hlen
      | cons c r =>
        refine ⟨c, r, rfl, ?_⟩
        have hc : c ∈ (c :: r).take 8 := by
          rw [List.take_cons (by omega : 0 < 8)]
          simp
        have := hhex c hc
        intro he
        rw [he] at this
        exact absurd this (by decide)

theorem decomp_caps_head_ne_lt (atoms : List Atom) :
    ∀ (s : Str) (cs : List Str), Decomp atoms s cs →
      ∀ t ∈ cs, ∃ c r, t = c :: r ∧ c ≠ '<' := by
  induction atoms with
  | nil =>
    intro s cs h
    obtain ⟨_, rfl⟩ := h
    simp
  | cons a as IH =>
    intro s cs h
    cases a with
    | lit c =>
      obtain ⟨s', _, hd⟩ := h
      exact IH s' cs hd
    | grp k =>
      obtain ⟨t, s', cs', _, hg, rfl, hd⟩ := h
      intro u hu
      rcases List.mem_cons.mp hu with rfl | hu'
      · exact groupMatchB_head_ne_lt k u hg
      · exact IH s' cs' hd u hu'

theorem names_mapM (toks : List Tok) (hwf : ∀ t ∈ toks, TokNameWf t) :
    (phSources toks).mapM (fun arg => (pyParamMatch arg).map (fun m => m.nameG)) =
      some (phNames toks) := by
  induction toks with
  | nil => rfl
  | cons t ts IH =>
    have IH' := IH (fun u hu => hwf u (List.mem_cons_of_mem _ hu))
    cases t with
    | lit c =>
      rw [show phSources (Tok.lit c :: ts) = phSources ts from by simp [phSources]]
      rw [show phNames (Tok.lit c :: ts) = phNames ts from by simp [phNames]]
      exact IH'
    | ph k n =>
      obtain ⟨hne, hword⟩ := hwf (Tok.ph k n) (List.mem_cons_self _ _)
      rw [show phSources (Tok.ph k n :: ts) =
          renderTok (Tok.ph k n) :: phSources ts from by simp [phSources]]
      rw [show phNames (Tok.ph k n :: ts) = n :: phNames ts from by simp [phNames]]
      rw [List.mapM_cons]
      obtain ⟨m, hm, hname⟩ := pyParamMatch_ph k n hne hword
      rw [hm]
      simp only [Option.map_some', Option.bind_eq_bind, Option.some_bind]
      rw [IH']
      simp only [Option.some_bind, pure, hname]
    | rgx p n =>
      exact absurd (hwf (Tok.rgx p n) (List.mem_cons_self _ _)) (by simp [TokNameWf])

end ALP

namespace ALP

/-- Literal tokens that keep the placeholder scan aligned: neither `<`
nor `>`. -/
def litOkTok : Tok → Bool
  | .lit c => !(c = '<' || c = '>')
  | _ => true

/-- **C5** Argument extraction re-matches the path against the route's
compiled expression; whenever that match succeeds with captures `caps`,
the raw string pipeline of `_get_matching_args` — placeholder scan of the
template, name resolution through `param_pattern`, the index-aligned
conversion, the degenerate-capture skip, and `dict(zip(...))` — produces
exactly the captured texts paired with the declared parameter names in
left-to-right declaration order, each converted by the value converter;
moreover the skip guard never fires, because a captured text always
starts with a character its class accepts while a placeholder text starts
with `<`. -/
theorem C5_argument_extraction (route : RouteEntry) (url : String)
    (toks : List Tok) (atoms : List Atom) (caps : List Str)
    (htok : tokenize route.path.toList = some toks)
    (hlit : toks.all litOkTok = true)
    (hat : toks.mapM atomOfTok = some atoms)
    (hm : matchCaps atoms url.toList = some caps) :
    getMatchingArgs route url =
      ((caps.zip (phSources toks)).mapM (fun p => pyConverters p.1 p.2)).map
        (fun args => ((phNames toks).map String.mk).zip args) ∧
    (caps.zip (phSources toks)).filter (fun p => decide (p.1 ≠ p.2)) =
      caps.zip (phSources toks) := by
  obtain ⟨hrender, hwf⟩ := tokenize_some_spec _ _ htok
  have hlit' : ∀ c, Tok.lit c ∈ toks → c ≠ '<' ∧ c ≠ '>' := by
    intro c hc
    have := List.all_eq_true.mp hlit _ hc
    simp only [litOkTok, Bool.not_eq_true', Bool.or_eq_false_iff,
      decide_eq_false_iff_not] at this
    exact this
  have hdec := matchCaps_sound _ _ _ hm
  have hfil : (caps.zip (phSources toks)).filter (fun p => decide (p.1 ≠ p.2)) =
      caps.zip (phSources toks) := by
    rw [List.filter_eq_self]
    intro p hp
    have h1 := List.of_mem_zip hp
    obtain ⟨c, r, hcr, hcne⟩ := decomp_caps_head_ne_lt atoms url.toList caps hdec p.1 h1.1
    have h2 : ∃ rr, p.2 = '<' :: rr := by
      have := h1.2
      unfold phSources at this
      obtain ⟨t, _, ht⟩ := List.mem_filterMap.mp this
      cases t with
      | lit c2 => cases ht
      | ph k n =>
        simp only [Option.some.injEq] at ht
        exact ⟨_, by rw [← ht]; rfl⟩
      | rgx p2 n2 => cases ht
    obtain ⟨rr, hrr⟩ := h2
    rw [decide_eq_true_eq]
    intro hcontra
    rw [hcr, hrr] at hcontra
    rw [List.cons.injEq] at hcontra
    exact hcne hcontra.1
  refine ⟨?_, hfil⟩
  unfold getMatchingArgs
  rw [show pathToAtoms route.path.toList = some atoms from by
    unfold pathToAtoms
    rw [htok]
    exact hat]
  dsimp only
  rw [hm]
  dsimp only
  have hargs : paramsFinditer route.path.toList = phSources toks := by
    rw [hrender]
    exact paramsFinditer_render toks hwf hlit'
  rw [hargs]
  rw [names_mapM toks hwf]
  dsimp only
  have hlen : caps.length = (phSources toks).length := by
    rw [decomp_caps_length atoms url.toList caps hdec]
    exact mapM_atoms_grp_count toks atoms hat
  rw [if_neg (by omega)]
  rw [hfil]

/-- The compiled route for the spec scenario `/test/<string:user>/<name>`. -/
def c5Route : RouteEntry :=
  ⟨"/test/<string:user>/<name>", "^/test/([a-zA-Z0-9_]+)/([a-zA-Z0-9_]+)$",
    "/test/{user}/{name}", ["GET"], false, epOk⟩

/-- The tokens of the scenario template. -/
def c5Toks : List Tok :=
  ("/test/".toList.map Tok.lit) ++
    [Tok.ph .strP "user".toList, Tok.lit '/', Tok.ph .bare "name".toList]

/-- The atoms of the scenario template. -/
def c5Atoms : List Atom :=
  ("/test/".toList.map Atom.lit) ++ [Atom.grp .word, Atom.lit '/', Atom.grp .word]

theorem C5_argument_extraction_witness :
    getMatchingArgs c5Route "/test/remote/pixel" =
      .ok [("user", ConvValue.str "remote"), ("name", ConvValue.str "pixel")] :=
  ((C5_argument_extraction c5Route "/test/remote/pixel" c5Toks c5Atoms
      ["remote".toList, "pixel".toList]
      (by decide) (by decide) (by decide) (by decide)).1).trans (by decide)

end ALP

namespace ALP

/-- `re.findall(r"(<regex[^>]*>)", s)` over a whole string, with adequate
fuel. -/
def findRegexPh (s : Str) : List Str := findRegexPhF (s.length + 1) s

theorem findRegexPh_cons_ne (c : Char) (s : Str) (hc : c ≠ '<') :
    findRegexPh (c :: s) = findRegexPh s := by
  unfold findRegexPh
  simp only [List.length_cons]
  rw [findRegexPhF, if_neg ?hp]
  case hp =>
    intro hpre
    obtain ⟨t, ht⟩ := List.isPrefixOf_iff_prefix.mp hpre
    rw [show "<regex".toList = '<' :: "regex".toList from rfl, List.cons_append] at ht
    rw [List.cons.injEq] at ht
    exact hc ht.1.symm

theorem findRegexPh_lt_not_regex (r : Str) (hr : ("regex".toList.isPrefixOf r) = false) :
    findRegexPh ('<' :: r) = findRegexPh r := by
  unfold findRegexPh
  simp only [List.length_cons]
  rw [findRegexPhF, if_neg ?hp]
  case hp =>
    intro hpre
    obtain ⟨t, ht⟩ := List.isPrefixOf_iff_prefix.mp hpre
    rw [show "<regex".toList = '<' :: "regex".toList from rfl, List.cons_append] at ht
    rw [List.cons.injEq] at ht
    rw [Bool.eq_false_iff] at hr
    exact hr ( List.isPrefixOf_iff_prefix.mpr ⟨t, ht.2⟩)

theorem findRegexPh_pass (xs : Str) (rest : Str) (hxs : ∀ c ∈ xs, c ≠ '<') :
    findRegexPh (xs ++ rest) = findRegexPh rest := by
  induction xs with
  | nil => rfl
  | cons a t IH =>
    rw [List.cons_append, findRegexPh_cons_ne a _ (hxs a (by simp))]
    exact IH (fun c hc => hxs c (List.mem_cons_of_mem _ hc))

theorem prefix_of_append_sep (pre n : Str) (sep : Char) (rest : Str)
    (hnp : (pre.isPrefixOf n) = false) (hsep : sep ∉ pre) :
    (pre.isPrefixOf (n ++ sep :: rest)) = false := by
  rw [Bool.eq_false_iff]
  intro hpre
  have hp : pre <+: n ++ sep :: rest := List.isPrefixOf_iff_prefix.mp hpre
  by_cases hlen : pre.length ≤ n.length
  · have hn : pre <+: n :=
      List.prefix_of_prefix_length_le hp (List.prefix_append n (sep :: rest)) hlen
    rw [Bool.eq_false_iff] at hnp
    exact hnp ( List.isPrefixOf_iff_prefix.mpr hn)
  · have h2 : n ++ [sep] <+: pre := by
      refine List.prefix_of_prefix_length_le ⟨rest, by simp⟩ hp ?_
      simp only [List.length_append, List.length_cons, List.length_nil]
      omega
    exact hsep (h2.subset (List.mem_append.mpr (Or.inr (by simp))))

theorem isPrefixOf_cons_ne (d : Char) (t : Str) (c : Char) (s : Str) (hc : d ≠ c) :
    (((d :: t : Str)).isPrefixOf (c :: s)) = false := by
  rw [Bool.eq_false_iff]
  intro h
  obtain ⟨u, hu⟩ := List.isPrefixOf_iff_prefix.mp h
  rw [List.cons_append, List.cons.injEq] at hu
  exact hc hu.1

/-- Template well-formedness for documentation-path generation: literal
characters avoid `<` and `>`, placeholder names are non-empty word runs, a
bare placeholder name does not begin with the letters `regex`, and
inline-regex placeholders are absent. -/
def c9TokOk : Tok → Bool
  | .lit c => !(decide (c = '<') || decide (c = '>'))
  | .ph k n =>
    !n.isEmpty && n.all isWordCh &&
      !(decide (k = PhKind.bare) && "regex".toList.isPrefixOf n)
  | .rgx _ _ => false

/-- The documentation form of one token: a placeholder becomes `{name}`. -/
def openapiTok : Tok → Str
  | .lit c => [c]
  | .ph _ n => '{' :: (n ++ ['}'])
  | .rgx _ n => '{' :: (n ++ ['}'])

/-- The documentation form of a whole template. -/
def openapiForm (toks : List Tok) : Str := (toks.map openapiTok).flatten

theorem c9_ph_unpack (k : PhKind) (n : Str) (h : c9TokOk (.ph k n) = true) :
    n ≠ [] ∧ (∀ c ∈ n, isWordCh c = true) ∧
      (k = PhKind.bare → ("regex".toList.isPrefixOf n) = false) := by
  simp only [c9TokOk, Bool.and_eq_true, Bool.not_eq_true', Bool.and_eq_false_iff,
    decide_eq_false_iff_not, List.isEmpty_eq_false, List.all_eq_true,
    decide_eq_true_eq] at h
  obtain ⟨⟨hne, hword⟩, hbare⟩ := h
  refine ⟨hne, fun c hc => hword c hc, fun hk => ?_⟩
  rcases hbare with hb | hb
  · exact absurd hk hb
  · exact hb

theorem kwStr_ne_lt (k : PhKind) : ∀ c ∈ kwStr k, c ≠ '<' := by
  cases k <;> decide

theorem findRegexPh_render_nil (toks : List Tok) (hwf : toks.all c9TokOk = true) :
    findRegexPh (render toks) = [] := by
  induction toks with
  | nil => rfl
  | cons t ts IH =>
    rw [List.all_cons, Bool.and_eq_true] at hwf
    obtain ⟨ht, hts⟩ := hwf
    have IH' := IH hts
    rw [show render (t :: ts) = renderTok t ++ render ts from by
      simp [render, List.map_cons, List.flatten_cons]]
    cases t with
    | lit c =>
      simp only [c9TokOk, Bool.not_eq_true', Bool.or_eq_false_iff,
        decide_eq_false_iff_not] at ht
      rw [renderTok, List.singleton_append, findRegexPh_cons_ne c _ ht.1]
      exact IH'
    | ph k n =>
      obtain ⟨hne, hword, hbare⟩ := c9_ph_unpack k n ht
      rw [show renderTok (Tok.ph k n) ++ render ts =
          '<' :: (kwStr k ++ (n ++ '>' :: render ts)) from by
        simp [renderTok, List.cons_append, List.append_assoc]]
      rw [findRegexPh_lt_not_regex _ ?hreg]
      case hreg =>
        cases k with
        | bare =>
          rw [show kwStr PhKind.bare ++ (n ++ '>' :: render ts) =
              n ++ '>' :: render ts from by simp [kwStr]]
          exact prefix_of_append_sep _ n '>' (render ts) (hbare rfl) (by decide)
        | strP =>
          rw [show kwStr PhKind.strP ++ (n ++ '>' :: render ts) =
              's' :: ("tring:".toList ++ (n ++ '>' :: render ts)) from rfl]
          exact isPrefixOf_cons_ne 'r' _ 's' _ (by decide)
        | intP =>
          rw [show kwStr PhKind.intP ++ (n ++ '>' :: render ts) =
              'i' :: ("nt:".toList ++ (n ++ '>' :: render ts)) from rfl]
          exact isPrefixOf_cons_ne 'r' _ 'i' _ (by decide)
        | floatP =>
          rw [show kwStr PhKind.floatP ++ (n ++ '>' :: render ts) =
              'f' :: ("loat:".toList ++ (n ++ '>' :: render ts)) from rfl]
          exact isPrefixOf_cons_ne 'r' _ 'f' _ (by decide)
        | uuidP =>
          rw [show kwStr PhKind.uuidP ++ (n ++ '>' :: render ts) =
              'u' :: ("uid:".toList ++ (n ++ '>' :: render ts)) from rfl]
          exact isPrefixOf_cons_ne 'r' _ 'u' _ (by decide)
      rw [findRegexPh_pass (kwStr k) _ (kwStr_ne_lt k)]
      rw [findRegexPh_pass n _ (fun c hc => isWordCh_ne_lt c (hword c hc))]
      rw [findRegexPh_cons_ne '>' _ (by decide)]
      exact IH'
    | rgx p nm => exact absurd ht (by simp [c9TokOk])

/-- `re.sub(r"<([a-zA-Z0-9_]+\:)?", "\x7b", s)` over a whole string, with
adequate fuel. -/
def openapiBrace (s : Str) : Str := openapiBraceF (s.length + 1) s

theorem openapiBraceF_irrel (f1 : Nat) :
    ∀ (s : Str) (f2 : Nat), s.length < f1 → s.length < f2 →
      openapiBraceF f1 s = openapiBraceF f2 s := by
  induction f1 with
  | zero =>
    intro s f2 h1 _
    omega
  | succ g IH =>
    intro s f2 h1 h2
    match f2, h2 with
    | g2 + 1, h2 =>
      cases s with
      | nil => rw [openapiBraceF, openapiBraceF]
      | cons c r =>
        simp only [List.length_cons] at h1 h2
        rw [openapiBraceF, openapiBraceF]
        by_cases hc : c = '<'
        · rw [if_pos hc, if_pos hc]
          cases hd : r.dropWhile isWordCh with
          | nil => rw [IH r g2 (by omega) (by omega)]
          | cons d r2 =>
            have hlen : r2.length + 1 ≤ r.length := by
              have h5 : (r.dropWhile isWordCh).length ≤ r.length :=
                (List.dropWhile_sublist isWordCh).length_le
              rw [hd] at h5
              simpa using h5
            dsimp only
            by_cases hcol : d = ':' ∧ r.takeWhile isWordCh ≠ []
            · rw [if_pos hcol, if_pos hcol, IH r2 g2 (by omega) (by omega)]
            · rw [if_neg hcol, if_neg hcol, IH r g2 (by omega) (by omega)]
        · rw [if_neg hc, if_neg hc, IH r g2 (by omega) (by omega)]

theorem openapiBrace_pass_one (c : Char) (s : Str) (hc : c ≠ '<') :
    openapiBrace (c :: s) = c :: openapiBrace s := by
  unfold openapiBrace
  simp only [List.length_cons]
  rw [openapiBraceF, if_neg hc]

theorem openapiBrace_pass (xs : Str) (rest : Str) (hxs : ∀ c ∈ xs, c ≠ '<') :
    openapiBrace (xs ++ rest) = xs ++ openapiBrace rest := by
  induction xs with
  | nil => rfl
  | cons a t IH =>
    rw [List.cons_append, openapiBrace_pass_one a _ (hxs a (by simp)), List.cons_append]
    rw [IH (fun c hc => hxs c (List.mem_cons_of_mem _ hc))]

theorem openapiBrace_lt_bare (n : Str) (R : Str) (hword : ∀ c ∈ n, isWordCh c = true) :
    openapiBrace ('<' :: (n ++ '>' :: R)) = '{' :: (n ++ '>' :: openapiBrace R) := by
  unfold openapiBrace
  simp only [List.length_cons]
  rw [openapiBraceF, if_pos rfl]
  rw [dropWhile_word_append n R hword]
  dsimp only
  rw [if_neg (by rintro ⟨hcol, -⟩; exact absurd hcol (by decide))]
  rw [show openapiBraceF ((n ++ '>' :: R).length + 1) (n ++ '>' :: R) =
      openapiBrace (n ++ '>' :: R) from rfl]
  rw [openapiBrace_pass n _ (fun c hc => isWordCh_ne_lt c (hword c hc))]
  rw [openapiBrace_pass_one '>' R (by decide)]
  rfl

theorem openapiBrace_lt_typed (kw : Str) (n : Str) (R : Str) (hkw : kw ≠ [])
    (hkwW : ∀ c ∈ kw, isWordCh c = true) (hword : ∀ c ∈ n, isWordCh c = true) :
    openapiBrace ('<' :: (kw ++ ':' :: (n ++ '>' :: R))) =
      '{' :: (n ++ '>' :: openapiBrace R) := by
  unfold openapiBrace
  simp only [List.length_cons]
  rw [openapiBraceF, if_pos rfl]
  rw [dropWhile_word_sep kw ':' _ hkwW (by decide)]
  dsimp only
  rw [if_pos ⟨rfl, by rw [takeWhile_word_sep kw ':' _ hkwW (by decide)]; exact hkw⟩]
  rw [openapiBraceF_irrel _ (n ++ '>' :: R) ((n ++ '>' :: R).length + 1)
    (by simp only [List.length_append, List.length_cons]; omega) (by omega)]
  rw [show openapiBraceF ((n ++ '>' :: R).length + 1) (n ++ '>' :: R) =
      openapiBrace (n ++ '>' :: R) from rfl]
  rw [openapiBrace_pass n _ (fun c hc => isWordCh_ne_lt c (hword c hc))]
  rw [openapiBrace_pass_one '>' R (by decide)]
  rfl

/-- The final pass of `_path_to_openapi`: every `>` becomes `\x7d`. -/
def gtFix (c : Char) : Char := if c = '>' then '}' else c

theorem map_gtFix_word (n : Str) (hword : ∀ c ∈ n, isWordCh c = true) :
    n.map gtFix = n := by
  induction n with
  | nil => rfl
  | cons a t IH =>
    rw [List.map_cons, IH (fun c hc => hword c (List.mem_cons_of_mem _ hc))]
    rw [show gtFix a = a from by
      unfold gtFix
      rw [if_neg (isWordCh_ne_gt a (hword a (by simp)))]]

theorem kwWord_word (k : PhKind) : ∀ c ∈ kwWord k, isWordCh c = true := by
  cases k <;> decide

theorem openapiOut_render (toks : List Tok) (hwf : toks.all c9TokOk = true) :
    (openapiBrace (render toks)).map gtFix = openapiForm toks := by
  induction toks with
  | nil => rfl
  | cons t ts IH =>
    rw [List.all_cons, Bool.and_eq_true] at hwf
    obtain ⟨ht, hts⟩ := hwf
    have IH' := IH hts
    rw [show render (t :: ts) = renderTok t ++ render ts from by
      simp [render, List.map_cons, List.flatten_cons]]
    rw [show openapiForm (t :: ts) = openapiTok t ++ openapiForm ts from by
      simp [openapiForm, List.map_cons, List.flatten_cons]]
    cases t with
    | lit c =>
      simp only [c9TokOk, Bool.not_eq_true', Bool.or_eq_false_iff,
        decide_eq_false_iff_not] at ht
      rw [renderTok, List.singleton_append, openapiBrace_pass_one c _ ht.1]
      rw [List.map_cons, IH']
      rw [show gtFix c = c from by unfold gtFix; rw [if_neg ht.2]]
      rfl
    | ph k n =>
      obtain ⟨hne, hword, -⟩ := c9_ph_unpack k n ht
      rw [show renderTok (Tok.ph k n) ++ render ts =
          '<' :: (kwStr k ++ (n ++ '>' :: render ts)) from by
        simp [renderTok, List.cons_append, List.append_assoc]]
      have hbr : openapiBrace ('<' :: (kwStr k ++ (n ++ '>' :: render ts))) =
          '{' :: (n ++ '>' :: openapiBrace (render ts)) := by
        cases k with
        | bare =>
          rw [show kwStr PhKind.bare ++ (n ++ '>' :: render ts) =
              n ++ '>' :: render ts from by simp [kwStr]]
          exact openapiBrace_lt_bare n _ hword
        | strP =>
          rw [show kwStr PhKind.strP ++ (n ++ '>' :: render ts) =
              kwWord PhKind.strP ++ ':' :: (n ++ '>' :: render ts) from rfl]
          exact openapiBrace_lt_typed _ n _ (by decide) (kwWord_word _) hword
        | intP =>
          rw [show kwStr PhKind.intP ++ (n ++ '>' :: render ts) =
              kwWord PhKind.intP ++ ':' :: (n ++ '>' :: render ts) from rfl]
          exact openapiBrace_lt_typed _ n _ (by decide) (kwWord_word _) hword
        | floatP =>
          rw [show kwStr PhKind.floatP ++ (n ++ '>' :: render ts) =
              kwWord PhKind.floatP ++ ':' :: (n ++ '>' :: render ts) from rfl]
          exact openapiBrace_lt_typed _ n _ (by decide) (kwWord_word _) hword
        | uuidP =>
          rw [show kwStr PhKind.uuidP ++ (n ++ '>' :: render ts) =
              kwWord PhKind.uuidP ++ ':' :: (n ++ '>' :: render ts) from rfl]
          exact openapiBrace_lt_typed _ n _ (by decide) (kwWord_word _) hword
      rw [hbr]
      rw [List.map_cons, List.map_append, List.map_cons]
      rw [map_gtFix_word n hword, IH']
      rw [show gtFix '{' = '{' from rfl, show gtFix '>' = '}' from rfl]
      rw [openapiTok]
      simp [List.cons_append, List.append_assoc]
    | rgx p nm => exact absurd ht (by simp [c9TokOk])

theorem pathToOpenapi_render (toks : List Tok) (hwf : toks.all c9TokOk = true) :
    pathToOpenapi (render toks) = some (openapiForm toks) := by
  unfold pathToOpenapi
  rw [show findRegexPhF ((render toks).length + 1) (render toks) =
      findRegexPh (render toks) from rfl]
  rw [findRegexPh_render_nil toks hwf]
  rw [List.foldlM_nil]
  show some _ = some _
  rw [show openapiBraceF ((render toks).length + 1) (render toks) =
      openapiBrace (render toks) from rfl]
  rw [show (fun c => if c = '>' then '}' else c) = gtFix from rfl]
  rw [openapiOut_render toks hwf]

/-- The inline-regex normalization step of `_path_to_openapi` on the
concrete template `/x/<regex(a<b:c):n>/<int:k>`: the single found
candidate parses, and replacement yields `/x/<regex:n>/<int:k>`. -/
theorem c9_concrete :
    (pathToOpenapi ("/x/<regex(a<b:c):n>/<int:k>".toList)).map String.mk =
      some "/x/{n}/{k}" := by
  unfold pathToOpenapi
  rw [show findRegexPhF (("/x/<regex(a<b:c):n>/<int:k>".toList).length + 1)
      ("/x/<regex(a<b:c):n>/<int:k>".toList) = ["<regex(a<b:c):n>".toList] from by decide]
  rw [List.foldlM_cons]
  rw [show regexPatternSearch ("<regex(a<b:c):n>".toList) =
      some ("a<b:c".toList, "n".toList) from by decide]
  simp only [Option.map_some', Option.bind_eq_bind, Option.some_bind]
  rw [List.foldlM_nil]
  rw [show pyReplaceAll ("<regex(a<b:c):n>".toList)
      ("<regex:".toList ++ "n".toList ++ ['>'])
      ("/x/<regex(a<b:c):n>/<int:k>".toList) = "/x/<regex:n>/<int:k>".toList from by
    simp +decide [pyReplaceAll]]
  decide

/-- C9 counterexample: the template `/x/<regex(a>b):n>` has a `>` inside
the inline-regex pattern; the `<regex[^>]*>` scan truncates the candidate
to `<regex(a>`, `regex_pattern.search` fails on it, and `_path_to_openapi`
raises `AttributeError` (modelled as `none`) instead of producing a
documentation path. -/
theorem C9_openapi_rewrite_counterexample :
    pathToOpenapi ("/x/<regex(a>b):n>".toList) = none := by
  decide

/-- C9 (amended): on a well-formed template free of inline-regex
placeholders — literals avoid `<` and `>`, names are non-empty word runs,
bare names do not start with the letters `regex` — `_path_to_openapi`
rewrites every placeholder `<name>` / `<type:name>` to `\x7bname\x7d` and
keeps every other character unchanged; and the `<regex(pattern):name>`
normalization tolerates `(`, `<` and `:` inside the pattern, as on
`/x/<regex(a<b:c):n>/<int:k>`, which becomes `/x/\x7bn\x7d/\x7bk\x7d`. -/
theorem C9_openapi_rewrite_amended (toks : List Tok) (hwf : toks.all c9TokOk = true) :
    pathToOpenapi (render toks) = some (openapiForm toks) ∧
      (pathToOpenapi ("/x/<regex(a<b:c):n>/<int:k>".toList)).map String.mk =
        some "/x/{n}/{k}" :=
  ⟨pathToOpenapi_render toks hwf, c9_concrete⟩

theorem C9_openapi_rewrite_amended_witness :
    ([Tok.lit '/', Tok.ph PhKind.intP ['n']].all c9TokOk = true) ∧
      (pathToOpenapi (render [Tok.lit '/', Tok.ph PhKind.intP ['n']]) =
          some (openapiForm [Tok.lit '/', Tok.ph PhKind.intP ['n']]) ∧
        (pathToOpenapi ("/x/<regex(a<b:c):n>/<int:k>".toList)).map String.mk =
          some "/x/{n}/{k}") :=
  ⟨by decide, C9_openapi_rewrite_amended [Tok.lit '/', Tok.ph PhKind.intP ['n']] (by decide)⟩

end ALP
